import Mathlib

/-!
# Verification of the exact-cover Sudoku solver (sudoku_v1.c)

This file gives a shallow embedding of `src/sudoku/sudoku_v1.c` and proves
properties of it.  The embedding follows the C source closely:

* `sdC`, `sdR`, `sdRarr` model the sparse incidence tables built by
  `sd_genmat` (fields `c[729][4]` and `r[324][9]` of `sdaux_t`);
* `sd_update` models the state-update primitive `sd_update`;
* `SdState`, `sdScan`, `sdFind`, `sdBody`, `sdStep`, `sdRun`, `sdInit`
  model the explicit-stack search loop of `sd_solve`, including its
  out-of-bounds access (modelled by the `none` / `SdRes.ub` outcome) that
  occurs when the loop body keeps running after the depth has dropped
  below zero;
* `sdMainLine` models the per-line glue in `main` (`fgets` keeps the
  newline, and a line is solved iff `strlen(buf) >= 81`).

Characters are modelled by their ASCII codes as integers (49 = digit one,
57 = digit nine, 46 = dot, 10 = newline).  C machine integers never
overflow in the reachable states (counters are bounded by 4*81 = 324,
well within `int8_t`/`int16_t` ranges after sign), so the counters are
modelled as unbounded integers.
-/

namespace Sudoku

/-- The constraint table `a->c[r][c2]` built by `sd_genmat` (lines 85-92).
The triple loop over `i, j, k < 9` assigns consecutive row indices
`r = 81*i + 9*j + k`, so `i = r / 81`, `j = r / 9 % 9`, `k = r % 9`, and
the four entries are the four constraint formulas from the source. -/
def sdC (r c2 : Nat) : Nat :=
  let i := r / 81
  let j := r / 9 % 9
  let k := r % 9
  match c2 with
  | 0 => 9 * i + j
  | 1 => (i / 3 * 3 + j / 3) * 9 + k + 81
  | 2 => 9 * i + k + 162
  | _ => 9 * j + k + 243

/-- The list of the four constraints of placement `r`: the row
`a->c[r][0..3]` of the constraint table. -/
def sdCs (r : Nat) : List Nat := (List.range 4).map (sdC r)

/-- The placement table `a->r[c]` built by the inversion loop of
`sd_genmat` (lines 93-96): that loop walks `r = 0, ..., 728` in
increasing order and appends `r` to `a->r[k]` for each `k` among the four
constraints `a->c[r][0..3]`; hence `a->r[c]` holds, in increasing order,
exactly the placements incident to `c`. -/
def sdR (c : Nat) : List Nat :=
  (List.range 729).filter (fun r => (List.range 4).any (fun c2 => sdC r c2 == c))

/-- Array-style read `a->r[c][r2]`; entries past the 9 filled ones read
as 0, matching the `calloc` zero initialization in `sd_genmat`. -/
def sdRarr (c r2 : Nat) : Nat := (sdR c).getD r2 0

/-! ### Structure of the incidence tables -/

theorem mem_sdCs {c p : Nat} :
    c ∈ sdCs p ↔ sdC p 0 = c ∨ sdC p 1 = c ∨ sdC p 2 = c ∨ sdC p 3 = c := by
  simp [sdCs, show List.range 4 = [0, 1, 2, 3] from rfl, eq_comm]

theorem mem_sdR {c p : Nat} : p ∈ sdR c ↔ p < 729 ∧ c ∈ sdCs p := by
  simp only [sdR, List.mem_filter, List.mem_range, List.any_eq_true, beq_iff_eq]
  refine and_congr_right fun _ => ?_
  rw [mem_sdCs]
  constructor
  · rintro ⟨c2, hc2, h⟩
    interval_cases c2 <;> tauto
  · rintro (h | h | h | h)
    exacts [⟨0, by simp, h⟩, ⟨1, by simp, h⟩, ⟨2, by simp, h⟩, ⟨3, by simp, h⟩]

/-- Two strictly sorted lists with the same members are equal. -/
theorem sorted_eq_of_mem_iff {l1 l2 : List Nat}
    (s1 : l1.Sorted (· < ·)) (s2 : l2.Sorted (· < ·)) (h : ∀ x, x ∈ l1 ↔ x ∈ l2) :
    l1 = l2 :=
  List.eq_of_perm_of_sorted ((List.perm_ext_iff_of_nodup s1.nodup s2.nodup).2 h) s1 s2

theorem sdR_sorted (c : Nat) : (sdR c).Sorted (· < ·) :=
  (List.sorted_lt_range 729).filter _

theorem sorted_map_of_range9 (f : Nat → Nat)
    (hf : ∀ m1 m2, m1 < 9 → m2 < 9 → m1 < m2 → f m1 < f m2) :
    ((List.range 9).map f).Sorted (· < ·) := by
  show List.Pairwise (· < ·) ((List.range 9).map f)
  rw [List.pairwise_map, List.pairwise_iff_forall_sublist]
  intro a b hab
  have hma := hab.subset (List.mem_cons_self a [b])
  have hmb := hab.subset (List.mem_cons_of_mem a (List.mem_cons_self b []))
  rw [List.mem_range] at hma hmb
  have hlt : a < b := List.pairwise_iff_forall_sublist.1 (List.sorted_lt_range 9) hab
  exact hf a b hma hmb hlt

/-- Row-column constraint `9*a + b` is incident to the nine digit
placements of cell `(a, b)`. -/
theorem sdR_rowcol {a b : Nat} (ha : a < 9) (hb : b < 9) :
    sdR (9 * a + b) = (List.range 9).map (fun k => 81 * a + 9 * b + k) := by
  refine sorted_eq_of_mem_iff (sdR_sorted _) (sorted_map_of_range9 _ (by omega)) ?_
  intro p
  rw [mem_sdR, mem_sdCs]
  simp only [sdC, List.mem_map, List.mem_range]
  constructor
  · rintro ⟨hp, h | h | h | h⟩ <;> exact ⟨p % 9, by omega, by omega⟩
  · rintro ⟨k, hk, rfl⟩
    exact ⟨by omega, Or.inl (by omega)⟩

/-- Box-number constraint `81 + 9*t + k` is incident to the nine
placements of digit `k` in box `t`. -/
theorem sdR_boxnum {t k : Nat} (ht : t < 9) (hk : k < 9) :
    sdR (81 + 9 * t + k) =
      (List.range 9).map (fun m => 81 * (3 * (t / 3) + m / 3) + 9 * (3 * (t % 3) + m % 3) + k) := by
  refine sorted_eq_of_mem_iff (sdR_sorted _) (sorted_map_of_range9 _ (by omega)) ?_
  intro p
  rw [mem_sdR, mem_sdCs]
  simp only [sdC, List.mem_map, List.mem_range]
  constructor
  · rintro ⟨hp, h | h | h | h⟩ <;>
      exact ⟨(p / 81 - 3 * (t / 3)) * 3 + (p / 9 % 9 - 3 * (t % 3)), by omega, by omega⟩
  · rintro ⟨m, hm, rfl⟩
    exact ⟨by omega, Or.inr (Or.inl (by omega))⟩

/-- Row-number constraint `162 + 9*a + k` is incident to the nine
placements of digit `k` in row `a`. -/
theorem sdR_rownum {a k : Nat} (ha : a < 9) (hk : k < 9) :
    sdR (162 + 9 * a + k) = (List.range 9).map (fun j => 81 * a + 9 * j + k) := by
  refine sorted_eq_of_mem_iff (sdR_sorted _) (sorted_map_of_range9 _ (by omega)) ?_
  intro p
  rw [mem_sdR, mem_sdCs]
  simp only [sdC, List.mem_map, List.mem_range]
  constructor
  · rintro ⟨hp, h | h | h | h⟩ <;> exact ⟨p / 9 % 9, by omega, by omega⟩
  · rintro ⟨j, hj, rfl⟩
    exact ⟨by omega, Or.inr (Or.inr (Or.inl (by omega)))⟩

/-- Column-number constraint `243 + 9*b + k` is incident to the nine
placements of digit `k` in column `b`. -/
theorem sdR_colnum {b k : Nat} (hb : b < 9) (hk : k < 9) :
    sdR (243 + 9 * b + k) = (List.range 9).map (fun i => 81 * i + 9 * b + k) := by
  refine sorted_eq_of_mem_iff (sdR_sorted _) (sorted_map_of_range9 _ (by omega)) ?_
  intro p
  rw [mem_sdR, mem_sdCs]
  simp only [sdC, List.mem_map, List.mem_range]
  constructor
  · rintro ⟨hp, h | h | h | h⟩ <;> exact ⟨p / 81, by omega, by omega⟩
  · rintro ⟨i, hi, rfl⟩
    exact ⟨by omega, Or.inr (Or.inr (Or.inr (by omega)))⟩

/-- Every constraint has exactly 9 incident placements. -/
theorem sdR_length {c : Nat} (hc : c < 324) : (sdR c).length = 9 := by
  rcases Nat.lt_or_ge c 81 with h | h
  · have : c = 9 * (c / 9) + c % 9 := by omega
    rw [this, sdR_rowcol (by omega) (by omega), List.length_map, List.length_range]
  rcases Nat.lt_or_ge c 162 with h2 | h2
  · have : c = 81 + 9 * ((c - 81) / 9) + (c - 81) % 9 := by omega
    rw [this, sdR_boxnum (by omega) (by omega), List.length_map, List.length_range]
  rcases Nat.lt_or_ge c 243 with h3 | h3
  · have : c = 162 + 9 * ((c - 162) / 9) + (c - 162) % 9 := by omega
    rw [this, sdR_rownum (by omega) (by omega), List.length_map, List.length_range]
  · have : c = 243 + 9 * ((c - 243) / 9) + (c - 243) % 9 := by omega
    rw [this, sdR_colnum (by omega) (by omega), List.length_map, List.length_range]

theorem sdR_mem_lt {c p : Nat} (h : p ∈ sdR c) : p < 729 := (mem_sdR.1 h).1

theorem sdRarr_lt (c r2 : Nat) : sdRarr c r2 < 729 := by
  unfold sdRarr
  rcases Nat.lt_or_ge r2 (sdR c).length with h | h
  · rw [List.getD_eq_getElem _ _ h]
    exact sdR_mem_lt (List.getElem_mem h)
  · rw [List.getD_eq_default _ _ h]; omega

/-- Reading the nine array slots of `a->r[c]` recovers the placement list. -/
theorem sdR_eq_map_sdRarr {c : Nat} (hc : c < 324) :
    sdR c = (List.range 9).map (fun r2 => sdRarr c r2) := by
  apply List.ext_getElem
  · rw [List.length_map, List.length_range, sdR_length hc]
  intro i hi hi2
  have hlen : i < (sdR c).length := hi
  simp only [List.getElem_map, List.getElem_range, sdRarr]
  rw [List.getD_eq_getElem _ _ hlen]

/-- Membership in a constraint's placement list is witnessed by one of
the nine array slots. -/
theorem mem_sdR_exists_slot {c p : Nat} (hc : c < 324) (h : p ∈ sdR c) :
    ∃ r2, r2 < 9 ∧ sdRarr c r2 = p := by
  rw [sdR_eq_map_sdRarr hc] at h
  simpa using (List.mem_map.1 h).imp fun r2 hr2 => ⟨List.mem_range.1 hr2.1, hr2.2⟩

/-- Fold of `f[p] += v` over a list of indices (the inner loop of
`sd_update`, line 106). -/
def bumpAll (f : Nat → Int) (v : Int) (idxs : List Nat) : Nat → Int :=
  idxs.foldl (fun g p => Function.update g p (g p + v)) f

/-- `sd_update` (lines 100-108): for each of the four constraints
`c = aux->c[r][c2]` do `sc[c] += v` and then `sr[aux->r[c][r2]] += v` for
`r2 < 9`.  The incidence tables are parameters (`aux` in C). -/
def sd_update (cT rT : Nat → Nat → Nat) (sr sc : Nat → Int) (r : Nat) (v : Int) :
    (Nat → Int) × (Nat → Int) :=
  (List.range 4).foldl
    (fun st c2 =>
      let c := cT r c2
      (bumpAll st.1 v ((List.range 9).map (rT c)),
       Function.update st.2 c (st.2 c + v)))
    (sr, sc)

/-! ### The effect of `sd_update` as a closed formula -/

theorem bumpAll_apply (idxs : List Nat) (f : Nat → Int) (v : Int) (x : Nat) :
    bumpAll f v idxs x = f x + v * idxs.count x := by
  induction idxs generalizing f with
  | nil => simp [bumpAll]
  | cons a l ih =>
    rw [bumpAll, List.foldl_cons, show (List.foldl (fun g p => Function.update g p (g p + v)) (Function.update f a (f a + v)) l) = bumpAll (Function.update f a (f a + v)) v l from rfl, ih]
    rcases eq_or_ne x a with rfl | hxa
    · rw [Function.update_same, List.count_cons_self]
      push_cast
      ring
    · rw [Function.update_noteq hxa, List.count_cons_of_ne hxa]

/-- The placements whose blocked-counters `sd_update` touches: for each of
the four constraints of `r`, the nine array slots `aux->r[c][0..8]`. -/
def srTouches (r : Nat) : List Nat :=
  (sdCs r).flatMap (fun c => (List.range 9).map (fun r2 => sdRarr c r2))

/-- Closed form of `sd_update` over arbitrary incidence tables. -/
theorem sd_update_eq_gen (cT rT : Nat → Nat → Nat) (sr sc : Nat → Int) (r : Nat) (v : Int) :
    sd_update cT rT sr sc r v =
      (fun p => sr p +
        v * (((List.range 4).map (cT r)).flatMap (fun c => (List.range 9).map (rT c))).count p,
       fun c => sc c + v * ((List.range 4).map (cT r)).count c) := by
  have expand : ∀ (cs : List Nat) (sr sc : Nat → Int),
      cs.foldl (fun st c =>
        (bumpAll st.1 v ((List.range 9).map (rT c)),
         Function.update st.2 c (st.2 c + v))) (sr, sc) =
      (fun p => sr p + v * (cs.flatMap (fun c => (List.range 9).map (rT c))).count p,
       fun c => sc c + v * cs.count c) := by
    intro cs
    induction cs with
    | nil => intro sr sc; simp
    | cons a l ih =>
      intro sr sc
      rw [List.foldl_cons, ih]
      refine Prod.ext (funext fun p => ?_) (funext fun c => ?_)
      · simp only [bumpAll_apply, List.flatMap_cons, List.count_append]
        push_cast
        ring
      · dsimp only
        rcases eq_or_ne c a with rfl | hca
        · rw [Function.update_same, List.count_cons_self]
          push_cast
          ring
        · rw [Function.update_noteq hca, List.count_cons_of_ne hca]
  have step : sd_update cT rT sr sc r v =
      ((List.range 4).map (cT r)).foldl (fun st c =>
        (bumpAll st.1 v ((List.range 9).map (rT c)),
         Function.update st.2 c (st.2 c + v))) (sr, sc) := by
    rw [sd_update, List.foldl_map]
  rw [step, expand]

theorem sd_update_eq (sr sc : Nat → Int) (r : Nat) (v : Int) :
    sd_update sdC sdRarr sr sc r v =
      (fun p => sr p + v * (srTouches r).count p,
       fun c => sc c + v * (sdCs r).count c) := by
  rw [sd_update_eq_gen]
  rfl

theorem sd_update_fst (sr sc : Nat → Int) (r : Nat) (v : Int) (p : Nat) :
    (sd_update sdC sdRarr sr sc r v).1 p = sr p + v * (srTouches r).count p := by
  rw [sd_update_eq]

theorem sd_update_snd (sr sc : Nat → Int) (r : Nat) (v : Int) (c : Nat) :
    (sd_update sdC sdRarr sr sc r v).2 c = sc c + v * (sdCs r).count c := by
  rw [sd_update_eq]

/-! ### The search state of `sd_solve`

The locals of `sd_solve` (lines 112-115): depth `i` (an `int`, it can
reach -1 and -2), direction `dir`, scan cursor `c0`, hint count, the
per-depth stacks `cr`/`cc`, the counter vectors `sr`/`sc`, the output
buffer `out`, plus the list of grids printed so far (the `puts` calls). -/

structure SdState where
  i : Int
  dir : Int
  c0 : Nat
  hints : Nat
  cr : Nat → Int
  cc : Nat → Int
  sr : Nat → Int
  sc : Nat → Int
  out : Nat → Int
  emitted : List (List Int)

/-- The MRV scan (lines 127-136): walk `j = 0, ..., 323`, visiting
`c = (j + c0) mod 324` where `c0` is updated in place whenever the
minimum improves; skip used constraints; count viable placements `n`;
track the minimum and its constraint; break as soon as `n <= 1`.
Returns the final `(min, cc[i], c0)`. -/
def sdScanAux (sr sc : Nat → Int) : Nat → Nat → Nat → Int → Nat → Nat × Int × Nat
  | 0, _, mn, cci, c0 => (mn, cci, c0)
  | fuel + 1, j, mn, cci, c0 =>
    let c := if j + c0 < 324 then j + c0 else j + c0 - 324
    if sc c ≠ 0 then sdScanAux sr sc fuel (j + 1) mn cci c0
    else
      let n := ((List.range 9).filter (fun r2 => sr (sdRarr c r2) = 0)).length
      let mn2 := if n < mn then n else mn
      let cci2 := if n < mn then (c : Int) else cci
      let c02 := if n < mn then c + 1 else c0
      if n ≤ 1 then (mn2, cci2, c02)
      else sdScanAux sr sc fuel (j + 1) mn2 cci2 c02

/-- The scan starting at index `j` runs for the remaining `324 - j` loop
iterations (structural recursion on that count, so that the kernel can
evaluate it). -/
def sdScan (sr sc : Nat → Int) (j : Nat) (mn : Nat) (cci : Int) (c0 : Nat) :
    Nat × Int × Nat :=
  sdScanAux sr sc (324 - j) j mn cci c0

def sdFindAux (sr : Nat → Int) (c : Nat) : Nat → Nat → Nat
  | 0, r2 => r2
  | fuel + 1, r2 => if sr (sdRarr c r2) = 0 then r2 else sdFindAux sr c fuel (r2 + 1)

/-- The candidate search (lines 141-142): the first slot `r2` in
`[start, 9)` with `sr[aux->r[c][r2]] == 0`, or `9` if none (the loop
runs for the remaining `9 - r2` iterations). -/
def sdFind (sr : Nat → Int) (c : Nat) (r2 : Nat) : Nat :=
  sdFindAux sr c (9 - r2) r2

/-- The forward-scan block of the body (lines 126-137): when `dir == 1`,
run the MRV scan, store `cc[i]` and `c0`, and on `min == 0 || min == 10`
retract the depth (`cr[i--] = dir = -1`). -/
def sdForward (st : SdState) : SdState :=
  if st.dir = 1 then
    let i := st.i.toNat
    let res := sdScan st.sr st.sc 0 10 (st.cc i) st.c0
    let st2 := { st with cc := Function.update st.cc i res.2.1, c0 := res.2.2 }
    if res.1 = 0 ∨ res.1 = 10 then
      { st2 with cr := Function.update st2.cr i (-1), i := st2.i - 1, dir := -1 }
    else st2
  else st

/-- The second half of the body (lines 139-146): read `c = cc[i]`,
revert the depth's previous choice when backtracking, search the next
candidate, and either set it and advance or retract the depth.  `none`
models the out-of-bounds accesses `cc[i]`/`cr[i]` that the C code
performs when the dead-end branch has just pushed `i` below zero (or,
unreachably, when `cc[i]` is outside `[0, 324)`). -/
def sdPart2 (st1 : SdState) : Option SdState :=
  if st1.i < 0 then none
  else
    let i := st1.i.toNat
    let cI := st1.cc i
    if 0 ≤ cI ∧ cI < 324 then
      let c := cI.toNat
      let rev :=
        if st1.dir = -1 ∧ 0 ≤ st1.cr i then
          sd_update sdC sdRarr st1.sr st1.sc (sdRarr c (st1.cr i).toNat) (-1)
        else (st1.sr, st1.sc)
      let r2 := sdFind rev.1 c (st1.cr i + 1).toNat
      if r2 < 9 then
        let upd := sd_update sdC sdRarr rev.1 rev.2 (sdRarr c r2) 1
        some { st1 with sr := upd.1, sc := upd.2,
                        cr := Function.update st1.cr i (r2 : Int), i := st1.i + 1, dir := 1 }
      else
        some { st1 with sr := rev.1, sc := rev.2,
                        cr := Function.update st1.cr i (-1), i := st1.i - 1, dir := -1 }
    else none

/-- One iteration of the inner `while` body (lines 126-146), entered with
`0 <= i < 81 - hints`. -/
def sdBody (st : SdState) : Option SdState :=
  sdPart2 (sdForward st)

/-- Result of one step of the outer loop of `sd_solve`. -/
inductive SdRes where
  | cont (st : SdState)
  | done (st : SdState)
  | ub (st : SdState)

/-- One step of the outer loop (lines 124-152): leave when `i < 0`
(line 148); print and force a backtrack when the inner `while` condition
fails with `i >= 81 - hints` (lines 149-151); otherwise run one inner
body iteration. -/
def sdStep (st : SdState) : SdRes :=
  if st.i < 0 then .done st
  else if (81 : Int) - st.hints ≤ st.i then
    let i := st.i.toNat
    let out2 := (List.range i).foldl
      (fun o j =>
        let r := sdRarr (st.cc j).toNat (st.cr j).toNat
        Function.update o (r / 9) ((r % 9 : Int) + 49))
      st.out
    let g := (List.range 81).map out2
    .cont { st with out := out2, emitted := st.emitted ++ [g], i := st.i - 1, dir := -1 }
  else
    match sdBody st with
    | some st2 => .cont st2
    | none => .ub st

/-- Outcome of running `sd_solve`: normal return, undefined behavior, or
out of fuel. -/
inductive SdOutcome where
  | ok (st : SdState)
  | ub (st : SdState)
  | timeout (st : SdState)

def SdOutcome.state : SdOutcome → SdState
  | .ok st => st
  | .ub st => st
  | .timeout st => st

def sdRun : Nat → SdState → SdOutcome
  | 0, st => .timeout st
  | fuel + 1, st =>
    match sdStep st with
    | .cont st2 => sdRun fuel st2
    | .done st2 => .ok st2
    | .ub st2 => .ub st2

/-- The state after `n` continuing steps, `none` once the loop has left
(normally or through the out-of-bounds access). -/
def sdSteps : Nat → SdState → Option SdState
  | 0, st => some st
  | n + 1, st =>
    match sdStep st with
    | .cont st2 => sdSteps n st2
    | _ => none

/-- One iteration of the initialization loop (lines 118-123): apply the
hint placement `i*9 + (s i - 49)` if cell `i` holds a digit character,
count it, and reset `cr[i]`, `cc[i]`, `out[i]`. -/
def sdInitStep (s : Nat → Int) (st : SdState) (i : Nat) : SdState :=
  let st2 :=
    if 49 ≤ s i ∧ s i ≤ 57 then
      let upd := sd_update sdC sdRarr st.sr st.sc (i * 9 + (s i - 49).toNat) 1
      { st with sr := upd.1, sc := upd.2, hints := st.hints + 1 }
    else st
  { st2 with cr := Function.update st2.cr i (-1), cc := Function.update st2.cc i (-1),
             out := Function.update st2.out i (s i) }

/-- Initialization (lines 116-124): zero the counter vectors, then run
the loop over the 81 cells. -/
def sdInit (s : Nat → Int) : SdState :=
  (List.range 81).foldl (sdInitStep s)
    { i := 0, dir := 1, c0 := 0, hints := 0,
      cr := fun _ => -1, cc := fun _ => -1, sr := fun _ => 0, sc := fun _ => 0,
      out := fun _ => 0, emitted := [] }

/-- `sd_solve` (lines 110-154): the final outcome paired with the C
return value, which is the constant 0 (line 153). -/
def sd_solve (s : Nat → Int) (fuel : Nat) : SdOutcome × Int :=
  (sdRun fuel (sdInit s), 0)

/-- The grids printed by `sd_solve` within the given fuel. -/
def sdEmitted (s : Nat → Int) (fuel : Nat) : List (List Int) :=
  (sdRun fuel (sdInit s)).state.emitted

/-- One line of `main` (lines 160-163): `fgets` keeps the newline, so for
a newline-terminated line whose content has no NUL bytes,
`strlen(buf) = content.length + 1`; the line is skipped iff that is
below 81, otherwise `sd_solve` runs on the buffer and the `putchar`
emits a newline marker. -/
def sdMainLine (content : List Int) (fuel : Nat) : List (List Int) :=
  let buf := content ++ [10]
  if buf.length < 81 then []
  else sdEmitted (fun i => buf.getD i 0) fuel ++ [[10]]

/-! ### Semantic layer: the counters as functions of the selected placements -/

/-- The placements forced by the hints of the input: for each of the 81
cells holding a digit character, the placement `i*9 + (s i - 49)`
(line 120). -/
def hintPlacements (s : Nat → Int) : List Nat :=
  (List.range 81).filterMap
    (fun i => if 49 ≤ s i ∧ s i ≤ 57 then some (i * 9 + (s i - 49).toNat) else none)

/-- Value of the used-counter `sc[c]` after selecting the placements of
`sel`: the number of incidences of `c` among their constraint lists. -/
def scSpec (sel : List Nat) (c : Nat) : Nat := (sel.flatMap sdCs).count c

/-- Value of the blocked-counter `sr[p]` after selecting the placements
of `sel`: the number of times `p` occurs among their touched slots. -/
def srSpec (sel : List Nat) (p : Nat) : Nat := (sel.flatMap srTouches).count p

/-- Number of entries currently on the decision stack: the depths
`j < i`, plus depth `i` itself while backtracking (its choice is still
applied until the body reverts it). -/
def stackLen (st : SdState) : Nat := if st.dir = -1 then (st.i + 1).toNat else st.i.toNat

/-- The placement chosen at depth `j`: `aux->r[cc[j]][cr[j]]`. -/
def stackPl (st : SdState) (j : Nat) : Nat := sdRarr (st.cc j).toNat (st.cr j).toNat

def stackList (st : SdState) : List Nat := (List.range (stackLen st)).map (stackPl st)

/-- All currently selected placements: hints first (applied by the
initialization), then the decision stack. -/
def selOf (s : Nat → Int) (st : SdState) : List Nat := hintPlacements s ++ stackList st

/-- The search-state invariant of `sd_solve`, tied to an input `s`. -/
structure SdInv (s : Nat → Int) (st : SdState) : Prop where
  hints_eq : st.hints = (hintPlacements s).length
  hints_le : st.hints ≤ 81
  i_le : st.i ≤ 81 - (st.hints : Int)
  dir_cases : st.dir = 1 ∨ st.dir = -1
  dir_top : st.i = 81 - (st.hints : Int) → st.dir = 1
  dir_fwd_nonneg : st.dir = 1 → 0 ≤ st.i
  c0_le : st.c0 ≤ 324
  cc_mem : ∀ j, j < stackLen st → 0 ≤ st.cc j ∧ st.cc j < 324
  cr_mem : ∀ j, j < stackLen st → 0 ≤ st.cr j ∧ st.cr j < 9
  cr_reset : ∀ j, stackLen st ≤ j → st.cr j = -1
  sr_eq : ∀ p, st.sr p = (srSpec (selOf s st) p : Int)
  sc_eq : ∀ c, st.sc c = (scSpec (selOf s st) c : Int)
  compat : ∀ j, j < stackLen st →
    srSpec (hintPlacements s ++ (List.range j).map (stackPl st)) (stackPl st j) = 0
  out_hint : ∀ j, j < 81 → 49 ≤ s j → s j ≤ 57 → st.out j = s j
  emit_hint : ∀ g ∈ st.emitted, ∀ j, j < 81 → 49 ≤ s j → s j ≤ 57 → g.getD j 0 = s j
  emit_len : ∀ g ∈ st.emitted, g.length = 81

/-! ### Algebra of the spec counters -/

theorem srSpec_append (l1 l2 : List Nat) (p : Nat) :
    srSpec (l1 ++ l2) p = srSpec l1 p + srSpec l2 p := by
  simp [srSpec, List.flatMap_append, List.count_append]

theorem scSpec_append (l1 l2 : List Nat) (c : Nat) :
    scSpec (l1 ++ l2) c = scSpec l1 c + scSpec l2 c := by
  simp [scSpec, List.flatMap_append, List.count_append]

theorem srSpec_single (q p : Nat) : srSpec [q] p = (srTouches q).count p := by
  simp [srSpec]

theorem scSpec_single (q c : Nat) : scSpec [q] c = (sdCs q).count c := by
  simp [scSpec]

theorem srSpec_concat (l : List Nat) (q p : Nat) :
    srSpec (l ++ [q]) p = srSpec l p + (srTouches q).count p := by
  rw [srSpec_append, srSpec_single]

theorem scSpec_concat (l : List Nat) (q c : Nat) :
    scSpec (l ++ [q]) c = scSpec l c + (sdCs q).count c := by
  rw [scSpec_append, scSpec_single]

theorem srSpec_eq_zero_iff (sel : List Nat) (p : Nat) :
    srSpec sel p = 0 ↔ ∀ q ∈ sel, p ∉ srTouches q := by
  rw [srSpec, List.count_eq_zero]
  simp [List.mem_flatMap]

theorem sdC_zero (p : Nat) : sdC p 0 = p / 9 := by
  show 9 * (p / 81) + p / 9 % 9 = p / 9
  omega

theorem sdC_zero_mem (p : Nat) : sdC p 0 ∈ sdCs p := by
  rw [sdCs]
  exact List.mem_map.2 ⟨0, by simp, rfl⟩

/-- If two placements occupy the same cell, each lies among the slots the
other touches (they share the cell's row-column constraint). -/
theorem mem_srTouches_of_same_cell {p q : Nat} (hp : p < 729) (hq : q < 729)
    (hcell : p / 9 = q / 9) : p ∈ srTouches q := by
  have hc324 : q / 9 < 324 := by omega
  have hmem : p ∈ sdR (q / 9) := by
    rw [mem_sdR]
    exact ⟨hp, by rw [← hcell, ← sdC_zero p]; exact sdC_zero_mem p⟩
  obtain ⟨r2, hr2, hslot⟩ := mem_sdR_exists_slot hc324 hmem
  rw [srTouches]
  refine List.mem_flatMap.2 ⟨q / 9, ?_, ?_⟩
  · rw [← sdC_zero q]; exact sdC_zero_mem q
  · exact List.mem_map.2 ⟨r2, List.mem_range.2 hr2, hslot⟩

/-! ### Hint placements -/

theorem mem_hintPlacements {s : Nat → Int} {q : Nat} :
    q ∈ hintPlacements s ↔
      ∃ t, t < 81 ∧ 49 ≤ s t ∧ s t ≤ 57 ∧ q = t * 9 + (s t - 49).toNat := by
  rw [hintPlacements]
  simp only [List.mem_filterMap, List.mem_range]
  constructor
  · rintro ⟨t, ht, hq⟩
    by_cases hd : 49 ≤ s t ∧ s t ≤ 57
    · rw [if_pos hd] at hq
      exact ⟨t, ht, hd.1, hd.2, (Option.some_inj.1 hq).symm⟩
    · rw [if_neg hd] at hq
      exact absurd hq (by simp)
  · rintro ⟨t, ht, h1, h2, rfl⟩
    exact ⟨t, ht, by rw [if_pos ⟨h1, h2⟩]⟩

theorem hintPlacements_lt {s : Nat → Int} {q : Nat} (h : q ∈ hintPlacements s) :
    q < 729 := by
  obtain ⟨t, ht, h1, h2, rfl⟩ := mem_hintPlacements.1 h
  have : (s t - 49).toNat ≤ 8 := by omega
  omega

theorem hintPlacements_cell {s : Nat → Int} {q : Nat} (h : q ∈ hintPlacements s) :
    ∃ t, t < 81 ∧ 49 ≤ s t ∧ s t ≤ 57 ∧ q = t * 9 + (s t - 49).toNat ∧ q / 9 = t := by
  obtain ⟨t, ht, h1, h2, rfl⟩ := mem_hintPlacements.1 h
  have : (s t - 49).toNat ≤ 8 := by omega
  exact ⟨t, ht, h1, h2, rfl, by omega⟩

/-! ### Scan and candidate-search lemmas -/

theorem sdScanAux_spec (sr sc : Nat → Int) :
    ∀ (fuel j : Nat) (mn : Nat) (cci : Int) (c0 : Nat), fuel + j ≤ 324 → c0 ≤ 324 →
      (sdScanAux sr sc fuel j mn cci c0).1 ≤ mn ∧
      (sdScanAux sr sc fuel j mn cci c0).2.2 ≤ 324 ∧
      (((0 ≤ cci ∧ cci < 324) ∨ (sdScanAux sr sc fuel j mn cci c0).1 < mn) →
        0 ≤ (sdScanAux sr sc fuel j mn cci c0).2.1 ∧
        (sdScanAux sr sc fuel j mn cci c0).2.1 < 324) := by
  intro fuel
  induction fuel with
  | zero =>
    intro j mn cci c0 hfj hc0
    refine ⟨le_refl _, hc0, ?_⟩
    rintro (h | h)
    · exact h
    · exact absurd h (by simp [sdScanAux])
  | succ fuel ih =>
    intro j mn cci c0 hfj hc0
    rw [sdScanAux]
    set c := if j + c0 < 324 then j + c0 else j + c0 - 324 with hc
    have hclt : c < 324 := by rw [hc]; split <;> omega
    by_cases hsc : sc c ≠ 0
    · rw [if_pos hsc]
      exact ih (j + 1) mn cci c0 (by omega) hc0
    · rw [if_neg hsc]
      set n := ((List.range 9).filter (fun r2 => sr (sdRarr c r2) = 0)).length with hn
      have hn9 : n ≤ 9 := by
        rw [hn]
        calc ((List.range 9).filter (fun r2 => sr (sdRarr c r2) = 0)).length
            ≤ (List.range 9).length := List.length_filter_le _ _
          _ = 9 := List.length_range 9
      have hcc : (0 : Int) ≤ (c : Int) ∧ (c : Int) < 324 :=
        ⟨Int.natCast_nonneg c, by exact_mod_cast hclt⟩
      by_cases hlt : n < mn
      · simp only [if_pos hlt]
        by_cases hbr : n ≤ 1
        · rw [if_pos hbr]
          dsimp only
          exact ⟨le_of_lt hlt, by omega, fun _ => hcc⟩
        · rw [if_neg hbr]
          obtain ⟨h1, h2, h3⟩ := ih (j + 1) n (c : Int) (c + 1) (by omega) (by omega)
          refine ⟨le_trans h1 (le_of_lt hlt), h2, fun _ => ?_⟩
          exact h3 (Or.inl hcc)
      · simp only [if_neg hlt]
        by_cases hbr : n ≤ 1
        · rw [if_pos hbr]
          dsimp only
          refine ⟨le_refl _, hc0, ?_⟩
          rintro (h | h)
          · exact h
          · omega
        · rw [if_neg hbr]
          exact ih (j + 1) mn cci c0 (by omega) hc0

/-- If the minimum is already at most 9, or some constraint with a zero
used-counter is still ahead in the scan window, the scan ends with
minimum at most 9 (in particular not the sentinel 10). -/
theorem sdScanAux_min_le_nine (sr sc : Nat → Int) :
    ∀ (fuel j : Nat) (mn : Nat) (cci : Int) (c0 : Nat), fuel + j = 324 → c0 ≤ 324 →
      (mn ≤ 9 ∨ ∃ jj, j ≤ jj ∧ jj < 324 ∧
        sc (if jj + c0 < 324 then jj + c0 else jj + c0 - 324) = 0) →
      (sdScanAux sr sc fuel j mn cci c0).1 ≤ 9 := by
  intro fuel
  induction fuel with
  | zero =>
    intro j mn cci c0 hfj hc0 h
    rcases h with h | ⟨jj, hjj1, hjj2, _⟩
    · simpa [sdScanAux] using h
    · omega
  | succ fuel ih =>
    intro j mn cci c0 hfj hc0 h
    rw [sdScanAux]
    set c := if j + c0 < 324 then j + c0 else j + c0 - 324 with hc
    have hclt : c < 324 := by rw [hc]; split <;> omega
    by_cases hsc : sc c ≠ 0
    · rw [if_pos hsc]
      refine ih (j + 1) mn cci c0 (by omega) hc0 ?_
      rcases h with h | ⟨jj, hjj1, hjj2, hjj3⟩
      · exact Or.inl h
      · refine Or.inr ⟨jj, ?_, hjj2, hjj3⟩
        rcases Nat.eq_or_lt_of_le hjj1 with rfl | h2
        · exact absurd hjj3 (by rw [← hc] at *; exact hsc)
        · omega
    · rw [if_neg hsc]
      set n := ((List.range 9).filter (fun r2 => sr (sdRarr c r2) = 0)).length with hn
      have hn9 : n ≤ 9 := by
        rw [hn]
        calc ((List.range 9).filter (fun r2 => sr (sdRarr c r2) = 0)).length
            ≤ (List.range 9).length := List.length_filter_le _ _
          _ = 9 := List.length_range 9
      by_cases hlt : n < mn
      · simp only [if_pos hlt]
        by_cases hbr : n ≤ 1
        · rw [if_pos hbr]
          dsimp only
          omega
        · rw [if_neg hbr]
          have := (sdScanAux_spec sr sc fuel (j + 1) n (c : Int) (c + 1) (by omega) (by omega)).1
          omega
      · simp only [if_neg hlt]
        by_cases hbr : n ≤ 1
        · rw [if_pos hbr]
          dsimp only
          omega
        · rw [if_neg hbr]
          exact ih (j + 1) mn cci c0 (by omega) hc0 (Or.inl (by omega))

theorem sdScan_min_le (sr sc : Nat → Int) (mn : Nat) (cci : Int) (c0 : Nat)
    (hc0 : c0 ≤ 324) : (sdScan sr sc 0 mn cci c0).1 ≤ mn :=
  (sdScanAux_spec sr sc 324 0 mn cci c0 (by omega) hc0).1

theorem sdFindAux_spec (sr : Nat → Int) (c : Nat) :
    ∀ (fuel r2 : Nat), fuel + r2 = 9 →
      r2 ≤ sdFindAux sr c fuel r2 ∧
      (sdFindAux sr c fuel r2 < 9 → sr (sdRarr c (sdFindAux sr c fuel r2)) = 0) := by
  intro fuel
  induction fuel with
  | zero =>
    intro r2 hf
    rw [sdFindAux]
    exact ⟨le_refl _, by omega⟩
  | succ fuel ih =>
    intro r2 hf
    rw [sdFindAux]
    by_cases hz : sr (sdRarr c r2) = 0
    · rw [if_pos hz]
      exact ⟨le_refl _, fun _ => hz⟩
    · rw [if_neg hz]
      obtain ⟨h1, h2⟩ := ih (r2 + 1) (by omega)
      exact ⟨by omega, h2⟩

theorem sdFind_spec (sr : Nat → Int) (c : Nat) (start : Nat) (h : start ≤ 9) :
    start ≤ sdFind sr c start ∧
    (sdFind sr c start < 9 → sr (sdRarr c (sdFind sr c start)) = 0) := by
  rw [sdFind]
  exact sdFindAux_spec sr c (9 - start) start (by omega)

/-! ### The invariant holds after initialization -/

/-- The hint placements contributed by the first `n` cells. -/
def hintPlacementsN (s : Nat → Int) (n : Nat) : List Nat :=
  (List.range n).filterMap
    (fun i => if 49 ≤ s i ∧ s i ≤ 57 then some (i * 9 + (s i - 49).toNat) else none)

theorem hintPlacementsN_81 (s : Nat → Int) : hintPlacementsN s 81 = hintPlacements s := rfl

theorem hintPlacementsN_succ (s : Nat → Int) (n : Nat) :
    hintPlacementsN s (n + 1) =
      hintPlacementsN s n ++
        (if 49 ≤ s n ∧ s n ≤ 57 then [n * 9 + (s n - 49).toNat] else []) := by
  rw [hintPlacementsN, hintPlacementsN, List.range_succ, List.filterMap_append]
  congr 1
  split <;> simp_all

theorem sdInit_spec (s : Nat → Int) :
    ∀ n, n ≤ 81 →
      let stn : SdState := (List.range n).foldl (sdInitStep s)
        { i := 0, dir := 1, c0 := 0, hints := 0,
          cr := fun _ => -1, cc := fun _ => -1, sr := fun _ => 0, sc := fun _ => 0,
          out := fun _ => 0, emitted := [] }
      stn.i = 0 ∧ stn.dir = 1 ∧ stn.c0 = 0 ∧
      stn.hints = (hintPlacementsN s n).length ∧
      stn.cr = (fun _ => (-1 : Int)) ∧ stn.cc = (fun _ => (-1 : Int)) ∧
      stn.sr = (fun p => (srSpec (hintPlacementsN s n) p : Int)) ∧
      stn.sc = (fun c => (scSpec (hintPlacementsN s n) c : Int)) ∧
      stn.out = (fun j => if j < n then s j else 0) ∧ stn.emitted = [] := by
  intro n
  induction n with
  | zero =>
    intro _
    refine ⟨rfl, rfl, rfl, rfl, rfl, rfl, ?_, ?_, ?_, rfl⟩
    · funext p
      simp [hintPlacementsN, srSpec]
    · funext c
      simp [hintPlacementsN, scSpec]
    · funext j
      simp
  | succ n ih =>
    intro hn
    obtain ⟨hi, hdir, hc0, hhints, hcr, hcc, hsr, hsc, hout, hemit⟩ := ih (by omega)
    intro stn
    have hstn : stn = sdInitStep s ((List.range n).foldl (sdInitStep s)
        { i := 0, dir := 1, c0 := 0, hints := 0,
          cr := fun _ => -1, cc := fun _ => -1, sr := fun _ => 0, sc := fun _ => 0,
          out := fun _ => 0, emitted := [] }) n := by
      show ((List.range (n + 1)).foldl (sdInitStep s) _) = _
      rw [List.range_succ, List.foldl_append, List.foldl_cons, List.foldl_nil]
    have hsel := hintPlacementsN_succ s n
    by_cases hd : 49 ≤ s n ∧ s n ≤ 57
    · rw [if_pos hd] at hsel
      rw [hstn]
      simp only [sdInitStep, if_pos hd]
      refine ⟨hi, hdir, hc0, ?_, ?_, ?_, ?_, ?_, ?_, hemit⟩
      · simp only [hhints, hsel, List.length_append, List.length_singleton]
      · funext j
        rcases eq_or_ne j n with rfl | hj
        · rw [Function.update_same]
        · rw [Function.update_noteq hj, hcr]
      · funext j
        rcases eq_or_ne j n with rfl | hj
        · rw [Function.update_same]
        · rw [Function.update_noteq hj, hcc]
      · funext p
        rw [sd_update_eq]
        simp only [hsr]
        rw [hsel, srSpec_append, srSpec_single]
        push_cast
        ring
      · funext c
        rw [sd_update_eq]
        simp only [hsc]
        rw [hsel, scSpec_append, scSpec_single]
        push_cast
        ring
      · funext j
        rcases eq_or_ne j n with rfl | hj
        · rw [Function.update_same, if_pos (by omega)]
        · rw [Function.update_noteq hj]
          simp only [hout]
          by_cases hlt : j < n
          · rw [if_pos hlt, if_pos (by omega)]
          · rw [if_neg hlt, if_neg (by omega)]
    · rw [if_neg hd, List.append_nil] at hsel
      rw [hstn]
      simp only [sdInitStep, if_neg hd]
      refine ⟨hi, hdir, hc0, by rw [hhints, hsel], ?_, ?_, by rw [hsr, hsel],
        by rw [hsc, hsel], ?_, hemit⟩
      · funext j
        rcases eq_or_ne j n with rfl | hj
        · rw [Function.update_same]
        · rw [Function.update_noteq hj, hcr]
      · funext j
        rcases eq_or_ne j n with rfl | hj
        · rw [Function.update_same]
        · rw [Function.update_noteq hj, hcc]
      · funext j
        rcases eq_or_ne j n with rfl | hj
        · rw [Function.update_same, if_pos (by omega)]
        · rw [Function.update_noteq hj]
          simp only [hout]
          by_cases hlt : j < n
          · rw [if_pos hlt, if_pos (by omega)]
          · rw [if_neg hlt, if_neg (by omega)]

theorem sdInit_inv (s : Nat → Int) : SdInv s (sdInit s) := by
  obtain ⟨hi, hdir, hc0, hhints, hcr, hcc, hsr, hsc, hout, hemit⟩ :=
    sdInit_spec s 81 (le_refl _)
  rw [hintPlacementsN_81] at hhints hsr hsc
  have hun : sdInit s = (List.range 81).foldl (sdInitStep s)
      { i := 0, dir := 1, c0 := 0, hints := 0,
        cr := fun _ => -1, cc := fun _ => -1, sr := fun _ => 0, sc := fun _ => 0,
        out := fun _ => 0, emitted := [] } := rfl
  rw [← hun] at hi hdir hc0 hhints hcr hcc hsr hsc hout hemit
  have hlen : (hintPlacements s).length ≤ 81 := by
    rw [hintPlacements]
    calc ((List.range 81).filterMap _).length ≤ (List.range 81).length :=
          List.length_filterMap_le _ _
      _ = 81 := List.length_range 81
  have hstack : stackLen (sdInit s) = 0 := by
    rw [stackLen, hdir, hi]
    norm_num
  have hsel : selOf s (sdInit s) = hintPlacements s := by
    rw [selOf, stackList, hstack, List.range_zero, List.map_nil, List.append_nil]
  constructor
  · exact hhints
  · rw [hhints]; exact hlen
  · rw [hi, hhints]; omega
  · exact Or.inl hdir
  · intro _; exact hdir
  · intro _; rw [hi]
  · rw [hc0]; omega
  · intro j hj; rw [hstack] at hj; omega
  · intro j hj; rw [hstack] at hj; omega
  · intro j _; rw [hcr]
  · intro p; rw [hsr, hsel]
  · intro c; rw [hsc, hsel]
  · intro j hj; rw [hstack] at hj; omega
  · intro j hj h1 h2
    simp only [hout]
    rw [if_pos hj]
  · intro g hg; rw [hemit] at hg; exact absurd hg (List.not_mem_nil g)
  · intro g hg; rw [hemit] at hg; exact absurd hg (List.not_mem_nil g)

/-! ### Preservation of the invariant -/

theorem foldl_update_ne (L : List Nat) (f : Nat → Int) (g : Nat → Nat) (v : Nat → Int)
    (x : Nat) (hx : ∀ j ∈ L, g j ≠ x) :
    (L.foldl (fun o j => Function.update o (g j) (v j)) f) x = f x := by
  induction L generalizing f with
  | nil => rfl
  | cons a L ih =>
    rw [List.foldl_cons, ih _ (fun j hj => hx j (List.mem_cons_of_mem a hj)),
      Function.update_noteq (Ne.symm (hx a (List.mem_cons_self a L)))]

theorem map_range_getD (n : Nat) (f : Nat → Int) (j : Nat) (h : j < n) :
    ((List.range n).map f).getD j 0 = f j := by
  have hlen : j < ((List.range n).map f).length := by
    rw [List.length_map, List.length_range]; exact h
  rw [List.getD_eq_getElem _ _ hlen]
  simp

theorem stackList_congr {st1 st2 : SdState} (hlen : stackLen st1 = stackLen st2)
    (hpl : ∀ j, j < stackLen st1 → stackPl st1 j = stackPl st2 j) :
    stackList st1 = stackList st2 := by
  rw [stackList, stackList, ← hlen]
  exact List.map_congr_left (fun j hj => hpl j (List.mem_range.1 hj))

theorem stackLen_fwd {st : SdState} (h : st.dir = 1) : stackLen st = st.i.toNat := by
  rw [stackLen, if_neg (by rw [h]; decide)]

theorem stackLen_bwd {st : SdState} (h : st.dir = -1) : stackLen st = (st.i + 1).toNat := by
  rw [stackLen, if_pos h]

/-- `sdForward` preserves the invariant, keeps the hint count and the
output, and can only decrease the depth. -/
theorem sdForward_inv {s : Nat → Int} {st : SdState} (h : SdInv s st) :
    SdInv s (sdForward st) ∧ (sdForward st).i ≤ st.i ∧
      (sdForward st).hints = st.hints ∧ (sdForward st).emitted = st.emitted ∧
      (sdForward st).out = st.out := by
  rcases h.dir_cases with hdir | hdir
  case inr =>
    have heq : sdForward st = st := by
      rw [sdForward, if_neg (by rw [hdir]; decide)]
    rw [heq]
    exact ⟨h, le_refl _, rfl, rfl, rfl⟩
  case inl =>
  have hi0 : 0 ≤ st.i := h.dir_fwd_nonneg hdir
  have hslen : stackLen st = st.i.toNat := stackLen_fwd hdir
  set i : Nat := st.i.toNat with hidef
  set res := sdScan st.sr st.sc 0 10 (st.cc i) st.c0 with hres
  have hc02 : res.2.2 ≤ 324 :=
    (sdScanAux_spec st.sr st.sc 324 0 10 (st.cc i) st.c0 (by omega) h.c0_le).2.1
  set st2 : SdState := { st with cc := Function.update st.cc i res.2.1, c0 := res.2.2 }
    with hst2
  have hforward : sdForward st = if res.1 = 0 ∨ res.1 = 10 then
      { st2 with cr := Function.update st2.cr i (-1), i := st2.i - 1, dir := -1 }
    else st2 := by
    rw [sdForward, if_pos hdir]
  have hdir2 : st2.dir = 1 := hdir
  have hi2 : st2.i = st.i := rfl
  have hcc2 : st2.cc = Function.update st.cc i res.2.1 := rfl
  have hcr2 : st2.cr = st.cr := rfl
  have hslen2 : stackLen st2 = i := by rw [stackLen_fwd hdir2, hi2]
  have hpl2 : ∀ j, j < i → stackPl st2 j = stackPl st j := by
    intro j hj
    have hne : j ≠ i := by omega
    rw [stackPl, stackPl, hcc2, hcr2, Function.update_noteq hne]
  have hsel2 : selOf s st2 = selOf s st := by
    rw [selOf, selOf]
    refine congrArg _ (stackList_congr ?_ ?_)
    · rw [hslen2, hslen]
    · intro j hj
      rw [hslen2] at hj
      exact hpl2 j hj
  have hinv2 : SdInv s st2 := by
    constructor
    · exact h.hints_eq
    · exact h.hints_le
    · exact h.i_le
    · exact Or.inl hdir2
    · intro _; exact hdir2
    · intro _; rw [hi2]; exact hi0
    · exact hc02
    · intro j hj
      rw [hslen2] at hj
      have hne : j ≠ i := by omega
      rw [hcc2, Function.update_noteq hne]
      exact h.cc_mem j (by omega)
    · intro j hj
      rw [hslen2] at hj
      rw [hcr2]
      exact h.cr_mem j (by omega)
    · intro j hj
      rw [hslen2] at hj
      rw [hcr2]
      exact h.cr_reset j (by omega)
    · intro p; rw [hsel2]; exact h.sr_eq p
    · intro c; rw [hsel2]; exact h.sc_eq c
    · intro j hj
      rw [hslen2] at hj
      have heqpre : (List.range j).map (stackPl st2) = (List.range j).map (stackPl st) :=
        List.map_congr_left (fun jj hjj => hpl2 jj (by
          rw [List.mem_range] at hjj; omega))
      rw [heqpre, hpl2 j hj]
      exact h.compat j (by omega)
    · exact h.out_hint
    · exact h.emit_hint
    · exact h.emit_len
  by_cases hdead : res.1 = 0 ∨ res.1 = 10
  · rw [hforward, if_pos hdead]
    set st3 : SdState := { st2 with cr := Function.update st2.cr i (-1), i := st2.i - 1, dir := -1 }
      with hst3
    have hdir3 : st3.dir = -1 := rfl
    have hi3 : st3.i = st.i - 1 := rfl
    have hcr3 : st3.cr = Function.update st2.cr i (-1) := rfl
    have hcc3 : st3.cc = st2.cc := rfl
    have hslen3 : stackLen st3 = i := by
      rw [stackLen_bwd hdir3, hi3]
      omega
    have hpl3 : ∀ j, j < i → stackPl st3 j = stackPl st2 j := by
      intro j hj
      have hne : j ≠ i := by omega
      rw [stackPl, stackPl, hcc3, hcr3, Function.update_noteq hne]
    have hsel3 : selOf s st3 = selOf s st2 := by
      rw [selOf, selOf]
      refine congrArg _ (stackList_congr ?_ ?_)
      · rw [hslen3, hslen2]
      · intro j hj
        rw [hslen3] at hj
        exact hpl3 j hj
    have hhintsle : (st.hints : Int) ≤ 81 := by exact_mod_cast h.hints_le
    have hh3 : st3.hints = st.hints := rfl
    refine ⟨?_, by rw [hi3]; omega, rfl, rfl, rfl⟩
    constructor
    · exact hinv2.hints_eq
    · exact hinv2.hints_le
    · rw [hi3, hh3]
      have := h.i_le
      omega
    · exact Or.inr hdir3
    · intro hcon
      exfalso
      rw [hi3, hh3] at hcon
      have := h.i_le
      omega
    · intro hcon
      rw [hdir3] at hcon
      exact absurd hcon (by decide)
    · exact hinv2.c0_le
    · intro j hj
      rw [hslen3] at hj
      rw [hcc3]
      exact hinv2.cc_mem j (by rw [hslen2]; omega)
    · intro j hj
      rw [hslen3] at hj
      have hne : j ≠ i := by omega
      rw [hcr3, Function.update_noteq hne]
      exact hinv2.cr_mem j (by rw [hslen2]; omega)
    · intro j hj
      rw [hslen3] at hj
      rw [hcr3]
      rcases eq_or_ne j i with rfl | hne
      · rw [Function.update_same]
      · rw [Function.update_noteq hne]
        exact hinv2.cr_reset j (by rw [hslen2]; omega)
    · intro p; rw [hsel3]; exact hinv2.sr_eq p
    · intro c; rw [hsel3]; exact hinv2.sc_eq c
    · intro j hj
      rw [hslen3] at hj
      have heqpre : (List.range j).map (stackPl st3) = (List.range j).map (stackPl st2) :=
        List.map_congr_left (fun jj hjj => hpl3 jj (by rw [List.mem_range] at hjj; omega))
      rw [heqpre, hpl3 j hj]
      exact hinv2.compat j (by rw [hslen2]; omega)
    · exact hinv2.out_hint
    · exact hinv2.emit_hint
    · exact hinv2.emit_len
  · rw [hforward, if_neg hdead]
    exact ⟨hinv2, by rw [hi2], rfl, rfl, rfl⟩

/-- Invariant preservation for the "set the choice and move forward"
outcome of the body (lines 144-145).  `fsr`/`fsc` are the counter
vectors after the optional revert; they must agree with the spec of the
selection without the current depth's previous choice. -/
theorem sdPush_inv {s : Nat → Int} {st1 : SdState} (h : SdInv s st1) (hi0 : 0 ≤ st1.i)
    (hlt : st1.i < 81 - (st1.hints : Int))
    (fsr fsc : Nat → Int)
    (hfsr : ∀ p, fsr p = (srSpec (hintPlacements s ++
      (List.range st1.i.toNat).map (stackPl st1)) p : Int))
    (hfsc : ∀ c, fsc c = (scSpec (hintPlacements s ++
      (List.range st1.i.toNat).map (stackPl st1)) c : Int))
    (r2 : Nat) (hr2 : r2 < 9)
    (hcI : 0 ≤ st1.cc st1.i.toNat ∧ st1.cc st1.i.toNat < 324)
    (hccm : ∀ j, j < st1.i.toNat → 0 ≤ st1.cc j ∧ st1.cc j < 324)
    (hcrm : ∀ j, j < st1.i.toNat → 0 ≤ st1.cr j ∧ st1.cr j < 9)
    (hreset : ∀ j, st1.i.toNat + 1 ≤ j → st1.cr j = -1)
    (hcompat : ∀ j, j < st1.i.toNat →
      srSpec (hintPlacements s ++ (List.range j).map (stackPl st1)) (stackPl st1 j) = 0)
    (hzero : fsr (sdRarr (st1.cc st1.i.toNat).toNat r2) = 0) :
    SdInv s { st1 with
      sr := (sd_update sdC sdRarr fsr fsc (sdRarr (st1.cc st1.i.toNat).toNat r2) 1).1,
      sc := (sd_update sdC sdRarr fsr fsc (sdRarr (st1.cc st1.i.toNat).toNat r2) 1).2,
      cr := Function.update st1.cr st1.i.toNat (r2 : Int),
      i := st1.i + 1, dir := 1 } := by
  set i : Nat := st1.i.toNat with hidef
  set p2 : Nat := sdRarr (st1.cc i).toNat r2 with hp2
  set pre : List Nat := hintPlacements s ++ (List.range i).map (stackPl st1) with hpre
  set stN : SdState := { st1 with
      sr := (sd_update sdC sdRarr fsr fsc p2 1).1,
      sc := (sd_update sdC sdRarr fsr fsc p2 1).2,
      cr := Function.update st1.cr i (r2 : Int),
      i := st1.i + 1, dir := 1 } with hstN
  have hdirN : stN.dir = 1 := rfl
  have hiN : stN.i = st1.i + 1 := rfl
  have hccN : stN.cc = st1.cc := rfl
  have hcrN : stN.cr = Function.update st1.cr i (r2 : Int) := rfl
  have hslenN : stackLen stN = i + 1 := by
    rw [stackLen_fwd hdirN, hiN]
    omega
  have hplN : ∀ j, j < i → stackPl stN j = stackPl st1 j := by
    intro j hj
    have hne : j ≠ i := by omega
    rw [stackPl, stackPl, hccN, hcrN, Function.update_noteq hne]
  have hplNi : stackPl stN i = p2 := by
    rw [stackPl, hccN, hcrN, Function.update_same, hp2]
    congr 1
  have hmapN : (List.range i).map (stackPl stN) = (List.range i).map (stackPl st1) :=
    List.map_congr_left (fun j hj => hplN j (List.mem_range.1 hj))
  have hselN : selOf s stN = pre ++ [p2] := by
    rw [selOf, stackList, hslenN, List.range_succ, List.map_append, List.map_singleton,
      hplNi, hmapN, hpre, List.append_assoc]
  have hhN : stN.hints = st1.hints := rfl
  constructor
  · exact h.hints_eq
  · exact h.hints_le
  · rw [hiN, hhN]
    omega
  · exact Or.inl hdirN
  · intro _; exact hdirN
  · intro _; rw [hiN]; omega
  · exact h.c0_le
  · intro j hj
    rw [hslenN] at hj
    rw [hccN]
    rcases Nat.lt_or_ge j i with hji | hji
    · exact hccm j hji
    · have : j = i := by omega
      rw [this]
      exact hcI
  · intro j hj
    rw [hslenN] at hj
    rw [hcrN]
    rcases Nat.lt_or_ge j i with hji | hji
    · rw [Function.update_noteq (by omega)]
      exact hcrm j hji
    · have : j = i := by omega
      subst this
      rw [Function.update_same]
      constructor
      · exact_mod_cast Nat.zero_le r2
      · exact_mod_cast hr2
  · intro j hj
    rw [hslenN] at hj
    rw [hcrN, Function.update_noteq (by omega)]
    exact hreset j (by omega)
  · intro p
    show (sd_update sdC sdRarr fsr fsc p2 1).1 p = _
    rw [sd_update_fst, hfsr, hselN, srSpec_concat]
    push_cast
    ring
  · intro c
    show (sd_update sdC sdRarr fsr fsc p2 1).2 c = _
    rw [sd_update_snd, hfsc, hselN, scSpec_concat]
    push_cast
    ring
  · intro j hj
    rw [hslenN] at hj
    have hmap : (List.range j).map (stackPl stN) = (List.range j).map (stackPl st1) :=
      List.map_congr_left (fun jj hjj => hplN jj (by
        have := List.mem_range.1 hjj; omega))
    rcases Nat.lt_or_ge j i with hji | hji
    · rw [hmap, hplN j hji]
      exact hcompat j hji
    · have : j = i := by omega
      subst this
      rw [hmap, hplNi]
      have := hzero
      rw [hfsr] at this
      exact_mod_cast this
  · exact h.out_hint
  · exact h.emit_hint
  · exact h.emit_len

/-- Invariant preservation for the "constraint exhausted, retract the
depth" outcome of the body (line 146, also reached through line 137).
`fsr`/`fsc` must agree with the spec of the selection without the current
depth's choice. -/
theorem sdPop_inv {s : Nat → Int} {st1 : SdState} (h : SdInv s st1) (hi0 : 0 ≤ st1.i)
    (fsr fsc : Nat → Int)
    (hfsr : ∀ p, fsr p = (srSpec (hintPlacements s ++
      (List.range st1.i.toNat).map (stackPl st1)) p : Int))
    (hfsc : ∀ c, fsc c = (scSpec (hintPlacements s ++
      (List.range st1.i.toNat).map (stackPl st1)) c : Int))
    (hccm : ∀ j, j < st1.i.toNat → 0 ≤ st1.cc j ∧ st1.cc j < 324)
    (hcrm : ∀ j, j < st1.i.toNat → 0 ≤ st1.cr j ∧ st1.cr j < 9)
    (hreset : ∀ j, st1.i.toNat + 1 ≤ j → st1.cr j = -1)
    (hcompat : ∀ j, j < st1.i.toNat →
      srSpec (hintPlacements s ++ (List.range j).map (stackPl st1)) (stackPl st1 j) = 0) :
    SdInv s { st1 with sr := fsr, sc := fsc, cr := Function.update st1.cr st1.i.toNat (-1), i := st1.i - 1, dir := -1 } := by
  set i : Nat := st1.i.toNat with hidef
  set stN : SdState := { st1 with sr := fsr, sc := fsc, cr := Function.update st1.cr i (-1), i := st1.i - 1, dir := -1 } with hstN
  have hdirN : stN.dir = -1 := rfl
  have hiN : stN.i = st1.i - 1 := rfl
  have hccN : stN.cc = st1.cc := rfl
  have hcrN : stN.cr = Function.update st1.cr i (-1) := rfl
  have hslenN : stackLen stN = i := by
    rw [stackLen_bwd hdirN, hiN]
    omega
  have hplN : ∀ j, j < i → stackPl stN j = stackPl st1 j := by
    intro j hj
    have hne : j ≠ i := by omega
    rw [stackPl, stackPl, hccN, hcrN, Function.update_noteq hne]
  have hmapN : (List.range i).map (stackPl stN) = (List.range i).map (stackPl st1) :=
    List.map_congr_left (fun j hj => hplN j (List.mem_range.1 hj))
  have hselN : selOf s stN = hintPlacements s ++ (List.range i).map (stackPl st1) := by
    rw [selOf, stackList, hslenN, hmapN]
  have hhN : stN.hints = st1.hints := rfl
  constructor
  · exact h.hints_eq
  · exact h.hints_le
  · rw [hiN, hhN]
    have := h.i_le
    omega
  · exact Or.inr hdirN
  · intro hcon
    exfalso
    rw [hiN, hhN] at hcon
    have := h.i_le
    omega
  · intro hcon
    exact absurd (hdirN.symm.trans hcon) (by decide)
  · exact h.c0_le
  · intro j hj
    rw [hslenN] at hj
    rw [hccN]
    exact hccm j hj
  · intro j hj
    rw [hslenN] at hj
    rw [hcrN, Function.update_noteq (by omega)]
    exact hcrm j hj
  · intro j hj
    rw [hslenN] at hj
    rw [hcrN]
    rcases eq_or_ne j i with rfl | hne
    · rw [Function.update_same]
    · rw [Function.update_noteq hne]
      exact hreset j (by omega)
  · intro p
    show fsr p = _
    rw [hfsr, hselN]
  · intro c
    show fsc c = _
    rw [hfsc, hselN]
  · intro j hj
    rw [hslenN] at hj
    have hmap : (List.range j).map (stackPl stN) = (List.range j).map (stackPl st1) :=
      List.map_congr_left (fun jj hjj => hplN jj (by
        have := List.mem_range.1 hjj; omega))
    rw [hmap, hplN j hj]
    exact hcompat j hj
  · exact h.out_hint
  · exact h.emit_hint
  · exact h.emit_len

/-- The second half of the body preserves the invariant whenever it does
not perform an out-of-bounds access. -/
theorem sdPart2_inv {s : Nat → Int} {st1 st2 : SdState} (h : SdInv s st1)
    (hlt : st1.i < 81 - (st1.hints : Int)) (hp : sdPart2 st1 = some st2) :
    SdInv s st2 ∧ st2.hints = st1.hints ∧ st2.emitted = st1.emitted ∧ st2.out = st1.out := by
  rw [sdPart2] at hp
  by_cases hineg : st1.i < 0
  · rw [if_pos hineg] at hp
    exact absurd hp (by simp)
  rw [if_neg hineg] at hp
  have hi0 : 0 ≤ st1.i := by omega
  simp only at hp
  by_cases hguard : 0 ≤ st1.cc st1.i.toNat ∧ st1.cc st1.i.toNat < 324
  swap
  · rw [if_neg hguard] at hp
    exact absurd hp (by simp)
  rw [if_pos hguard] at hp
  set i : Nat := st1.i.toNat with hidef
  rcases h.dir_cases with hdir | hdir
  -- forward entry: no revert, the depth's slot is fresh
  · have hslen : stackLen st1 = i := stackLen_fwd hdir
    have hcrI : st1.cr i = -1 := h.cr_reset i (by omega)
    have hrevcond : ¬ (st1.dir = -1 ∧ 0 ≤ st1.cr i) := by
      rintro ⟨hcon, _⟩
      rw [hdir] at hcon
      exact absurd hcon (by decide)
    rw [if_neg hrevcond] at hp
    have hstart : (st1.cr i + 1).toNat = 0 := by
      rw [hcrI]
      decide
    rw [hstart] at hp
    have hfsr : ∀ p, st1.sr p = (srSpec (hintPlacements s ++
        (List.range i).map (stackPl st1)) p : Int) := by
      intro p
      rw [h.sr_eq p, selOf, stackList, hslen]
    have hfsc : ∀ c, st1.sc c = (scSpec (hintPlacements s ++
        (List.range i).map (stackPl st1)) c : Int) := by
      intro c
      rw [h.sc_eq c, selOf, stackList, hslen]
    have hccm : ∀ j, j < i → 0 ≤ st1.cc j ∧ st1.cc j < 324 := by
      intro j hj; exact h.cc_mem j (by omega)
    have hcrm : ∀ j, j < i → 0 ≤ st1.cr j ∧ st1.cr j < 9 := by
      intro j hj; exact h.cr_mem j (by omega)
    have hreset : ∀ j, i + 1 ≤ j → st1.cr j = -1 := by
      intro j hj; exact h.cr_reset j (by omega)
    have hcompat : ∀ j, j < i →
        srSpec (hintPlacements s ++ (List.range j).map (stackPl st1)) (stackPl st1 j) = 0 := by
      intro j hj; exact h.compat j (by omega)
    by_cases hfind : sdFind st1.sr ((st1.cc i).toNat) 0 < 9
    · rw [if_pos hfind] at hp
      obtain rfl := (Option.some_inj.1 hp).symm
      refine ⟨?_, rfl, rfl, rfl⟩
      exact sdPush_inv h hi0 hlt st1.sr st1.sc hfsr hfsc
        (sdFind st1.sr ((st1.cc i).toNat) 0) hfind hguard hccm hcrm hreset hcompat
        ((sdFind_spec st1.sr ((st1.cc i).toNat) 0 (by omega)).2 hfind)
    · rw [if_neg hfind] at hp
      obtain rfl := (Option.some_inj.1 hp).symm
      refine ⟨?_, rfl, rfl, rfl⟩
      exact sdPop_inv h hi0 st1.sr st1.sc hfsr hfsc hccm hcrm hreset hcompat
  -- backtrack entry: revert the depth's choice first
  · have hslen : stackLen st1 = i + 1 := by
      rw [stackLen_bwd hdir]
      omega
    have hcrI : 0 ≤ st1.cr i ∧ st1.cr i < 9 := h.cr_mem i (by omega)
    have hrevcond : st1.dir = -1 ∧ 0 ≤ st1.cr i := ⟨hdir, hcrI.1⟩
    rw [if_pos hrevcond] at hp
    set q : Nat := sdRarr (st1.cc i).toNat (st1.cr i).toNat with hq
    have hqpl : q = stackPl st1 i := rfl
    set pre : List Nat := hintPlacements s ++ (List.range i).map (stackPl st1) with hpre
    have hsel1 : selOf s st1 = pre ++ [stackPl st1 i] := by
      rw [selOf, stackList, hslen, List.range_succ, List.map_append, List.map_singleton,
        hpre, List.append_assoc]
    have hfsr : ∀ p, (sd_update sdC sdRarr st1.sr st1.sc q (-1)).1 p =
        (srSpec pre p : Int) := by
      intro p
      rw [sd_update_fst, h.sr_eq p, hsel1, hqpl, srSpec_concat]
      push_cast
      ring
    have hfsc : ∀ c, (sd_update sdC sdRarr st1.sr st1.sc q (-1)).2 c =
        (scSpec pre c : Int) := by
      intro c
      rw [sd_update_snd, h.sc_eq c, hsel1, hqpl, scSpec_concat]
      push_cast
      ring
    have hccm : ∀ j, j < i → 0 ≤ st1.cc j ∧ st1.cc j < 324 := by
      intro j hj; exact h.cc_mem j (by omega)
    have hcrm : ∀ j, j < i → 0 ≤ st1.cr j ∧ st1.cr j < 9 := by
      intro j hj; exact h.cr_mem j (by omega)
    have hreset : ∀ j, i + 1 ≤ j → st1.cr j = -1 := by
      intro j hj; exact h.cr_reset j (by omega)
    have hcompat : ∀ j, j < i →
        srSpec (hintPlacements s ++ (List.range j).map (stackPl st1)) (stackPl st1 j) = 0 := by
      intro j hj; exact h.compat j (by omega)
    have hstart : (st1.cr i + 1).toNat ≤ 9 := by omega
    by_cases hfind : sdFind (sd_update sdC sdRarr st1.sr st1.sc q (-1)).1
        ((st1.cc i).toNat) (st1.cr i + 1).toNat < 9
    · rw [if_pos hfind] at hp
      obtain rfl := (Option.some_inj.1 hp).symm
      refine ⟨?_, rfl, rfl, rfl⟩
      exact sdPush_inv h hi0 hlt
        (sd_update sdC sdRarr st1.sr st1.sc q (-1)).1
        (sd_update sdC sdRarr st1.sr st1.sc q (-1)).2
        (by rw [← hpre] at *; exact hfsr) (by rw [← hpre] at *; exact hfsc)
        (sdFind (sd_update sdC sdRarr st1.sr st1.sc q (-1)).1
          ((st1.cc i).toNat) (st1.cr i + 1).toNat) hfind hguard hccm hcrm hreset hcompat
        ((sdFind_spec (sd_update sdC sdRarr st1.sr st1.sc q (-1)).1
          ((st1.cc i).toNat) (st1.cr i + 1).toNat hstart).2 hfind)
    · rw [if_neg hfind] at hp
      obtain rfl := (Option.some_inj.1 hp).symm
      refine ⟨?_, rfl, rfl, rfl⟩
      exact sdPop_inv h hi0
        (sd_update sdC sdRarr st1.sr st1.sc q (-1)).1
        (sd_update sdC sdRarr st1.sr st1.sc q (-1)).2
        (by rw [← hpre] at *; exact hfsr) (by rw [← hpre] at *; exact hfsc)
        hccm hcrm hreset hcompat

/-- The inner loop body preserves the invariant. -/
theorem sdBody_inv {s : Nat → Int} {st st2 : SdState} (h : SdInv s st)
    (hlt : st.i < 81 - (st.hints : Int)) (hb : sdBody st = some st2) :
    SdInv s st2 ∧ st2.hints = st.hints ∧ st2.emitted = st.emitted ∧ st2.out = st.out := by
  rw [sdBody] at hb
  obtain ⟨hf, hile, hhints, hemit, hout⟩ := sdForward_inv h
  have hlt2 : (sdForward st).i < 81 - ((sdForward st).hints : Int) := by
    rw [hhints]
    omega
  obtain ⟨h2, hh2, he2, ho2⟩ := sdPart2_inv hf hlt2 hb
  exact ⟨h2, hh2.trans hhints, he2.trans hemit, ho2.trans hout⟩

theorem sdStep_done {st st2 : SdState} (h : sdStep st = SdRes.done st2) : st2 = st := by
  rw [sdStep] at h
  by_cases h1 : st.i < 0
  · rw [if_pos h1] at h
    exact (SdRes.done.injEq .. ▸ h).symm
  rw [if_neg h1] at h
  by_cases h2 : (81 : Int) - st.hints ≤ st.i
  · rw [if_pos h2] at h
    exact absurd h (by simp)
  rw [if_neg h2] at h
  rcases hb : sdBody st with _ | stb <;> rw [hb] at h <;> simp_all

theorem sdStep_ub {st st2 : SdState} (h : sdStep st = SdRes.ub st2) : st2 = st := by
  rw [sdStep] at h
  by_cases h1 : st.i < 0
  · rw [if_pos h1] at h
    exact absurd h (by simp)
  rw [if_neg h1] at h
  by_cases h2 : (81 : Int) - st.hints ≤ st.i
  · rw [if_pos h2] at h
    exact absurd h (by simp)
  rw [if_neg h2] at h
  rcases hb : sdBody st with _ | stb <;> rw [hb] at h <;> simp_all

/-- One outer-loop step preserves the invariant. -/
theorem sdStep_inv {s : Nat → Int} {st st2 : SdState} (h : SdInv s st)
    (hc : sdStep st = SdRes.cont st2) : SdInv s st2 := by
  rw [sdStep] at hc
  by_cases h1 : st.i < 0
  · rw [if_pos h1] at hc
    exact absurd hc (by simp)
  rw [if_neg h1] at hc
  by_cases h2 : (81 : Int) - st.hints ≤ st.i
  swap
  · rw [if_neg h2] at hc
    rcases hb : sdBody st with _ | stb <;> rw [hb] at hc
    · exact absurd hc (by simp)
    · have hst2 : st2 = stb := by
        have := SdRes.cont.injEq stb st2 ▸ hc
        simp_all
      rw [hst2]
      exact (sdBody_inv h (by omega) hb).1
  -- solution found: print the stack into the output buffer and emit it
  rw [if_pos h2] at hc
  have heqi : st.i = 81 - (st.hints : Int) := le_antisymm h.i_le h2
  have hdir : st.dir = 1 := h.dir_top heqi
  simp only at hc
  set i : Nat := st.i.toNat with hidef
  have hslen : stackLen st = i := stackLen_fwd hdir
  set out2 := (List.range i).foldl
    (fun o j =>
      let r := sdRarr (st.cc j).toNat (st.cr j).toNat
      Function.update o (r / 9) ((r % 9 : Int) + 49)) st.out with hout2
  have hbody : out2 = (List.range i).foldl
      (fun o j => Function.update o (stackPl st j / 9) ((stackPl st j % 9 : Int) + 49))
      st.out := rfl
  have houtA : ∀ x, x < 81 → 49 ≤ s x → s x ≤ 57 → out2 x = st.out x := by
    intro x hx h1x h2x
    rw [hbody]
    refine foldl_update_ne _ _ _ _ _ ?_
    intro j hj
    rw [List.mem_range] at hj
    set q : Nat := x * 9 + (s x - 49).toNat with hqdef
    have hqmem : q ∈ hintPlacements s := mem_hintPlacements.2 ⟨x, hx, h1x, h2x, rfl⟩
    have hqcell : q / 9 = x := by
      have : (s x - 49).toNat ≤ 8 := by omega
      omega
    have hcmp := h.compat j (by omega)
    rw [srSpec_append] at hcmp
    have hz : srSpec (hintPlacements s) (stackPl st j) = 0 := by omega
    have hnt : stackPl st j ∉ srTouches q :=
      (srSpec_eq_zero_iff _ _).1 hz q hqmem
    intro hcon
    exact hnt (mem_srTouches_of_same_cell (sdRarr_lt _ _) (hintPlacements_lt hqmem)
      (by rw [hcon, hqcell]))
  have hst2 : st2 = { st with out := out2, emitted := st.emitted ++ [(List.range 81).map out2], i := st.i - 1, dir := -1 } :=
    (SdRes.cont.inj hc).symm
  rw [hst2]
  set stN : SdState := { st with out := out2, emitted := st.emitted ++ [(List.range 81).map out2], i := st.i - 1, dir := -1 } with hstN
  have hdirN : stN.dir = -1 := rfl
  have hiN : stN.i = st.i - 1 := rfl
  have hhN : stN.hints = st.hints := rfl
  have hslenN : stackLen stN = i := by
    rw [stackLen_bwd hdirN, hiN]
    omega
  have hplN : ∀ j, stackPl stN j = stackPl st j := fun j => rfl
  have hselN : selOf s stN = selOf s st := by
    rw [selOf, selOf, stackList, stackList, hslenN, hslen]
    rfl
  have hhle : st.hints ≤ 81 := h.hints_le
  constructor
  · exact h.hints_eq
  · exact h.hints_le
  · rw [hiN, hhN]
    have := h.i_le
    omega
  · exact Or.inr hdirN
  · intro hcon
    exfalso
    rw [hiN, hhN] at hcon
    omega
  · intro hcon
    exact absurd (hdirN.symm.trans hcon) (by decide)
  · exact h.c0_le
  · intro j hj
    rw [hslenN] at hj
    exact h.cc_mem j (by omega)
  · intro j hj
    rw [hslenN] at hj
    exact h.cr_mem j (by omega)
  · intro j hj
    rw [hslenN] at hj
    exact h.cr_reset j (by omega)
  · intro p
    show st.sr p = _
    rw [hselN]
    exact h.sr_eq p
  · intro c
    show st.sc c = _
    rw [hselN]
    exact h.sc_eq c
  · intro j hj
    rw [hslenN] at hj
    show srSpec (hintPlacements s ++ (List.range j).map (stackPl st)) (stackPl st j) = 0
    exact h.compat j (by omega)
  · intro j hj h1j h2j
    show out2 j = s j
    rw [houtA j hj h1j h2j]
    exact h.out_hint j hj h1j h2j
  · intro g hg j hj h1j h2j
    show g.getD j 0 = s j
    rcases List.mem_append.1 hg with hg | hg
    · exact h.emit_hint g hg j hj h1j h2j
    · have : g = (List.range 81).map out2 := by simpa using hg
      rw [this, map_range_getD 81 out2 j hj, houtA j hj h1j h2j]
      exact h.out_hint j hj h1j h2j
  · intro g hg
    rcases List.mem_append.1 hg with hg | hg
    · exact h.emit_len g hg
    · have : g = (List.range 81).map out2 := by simpa using hg
      rw [this, List.length_map, List.length_range]

/-- The invariant holds after any number of steps of the outer loop. -/
theorem sdSteps_inv {s : Nat → Int} :
    ∀ (n : Nat) (st st2 : SdState), SdInv s st → sdSteps n st = some st2 → SdInv s st2 := by
  intro n
  induction n with
  | zero =>
    intro st st2 h hst
    rw [sdSteps] at hst
    rw [← Option.some_inj.1 hst]
    exact h
  | succ n ih =>
    intro st st2 h hst
    rw [sdSteps] at hst
    rcases hc : sdStep st with stb | stb | stb <;> rw [hc] at hst
    · exact ih stb st2 (sdStep_inv h hc) hst
    · exact absurd hst (by simp)
    · exact absurd hst (by simp)

/-- The invariant holds in the final state of any (possibly truncated)
run of the outer loop. -/
theorem sdRun_inv {s : Nat → Int} :
    ∀ (fuel : Nat) (st : SdState), SdInv s st → SdInv s (sdRun fuel st).state := by
  intro fuel
  induction fuel with
  | zero =>
    intro st h
    exact h
  | succ fuel ih =>
    intro st h
    rw [sdRun]
    rcases hc : sdStep st with stb | stb | stb
    · exact ih stb (sdStep_inv h hc)
    · rw [SdOutcome.state, sdStep_done hc]
      exact h
    · rw [SdOutcome.state, sdStep_ub hc]
      exact h

/-- Core lemma: every grid printed by `sd_solve` agrees with the input in
every cell that held a digit character. -/
theorem sdEmitted_hint {s : Nat → Int} {fuel : Nat} {g : List Int} (hg : g ∈ sdEmitted s fuel)
    {j : Nat} (hj : j < 81) (h1 : 49 ≤ s j) (h2 : s j ≤ 57) : g.getD j 0 = s j := by
  have h := sdRun_inv fuel (sdInit s) (sdInit_inv s)
  exact h.emit_hint g hg j hj h1 h2

theorem sdEmitted_len {s : Nat → Int} {fuel : Nat} {g : List Int} (hg : g ∈ sdEmitted s fuel) :
    g.length = 81 := by
  have h := sdRun_inv fuel (sdInit s) (sdInit_inv s)
  exact h.emit_len g hg

/-! ### Count of covered constraints (for the scan-sentinel claim) -/

theorem flatMap_sdCs_length (sel : List Nat) : (sel.flatMap sdCs).length = 4 * sel.length := by
  induction sel with
  | nil => rfl
  | cons a l ih =>
    rw [List.flatMap_cons, List.length_append, ih]
    have h4 : (sdCs a).length = 4 := by rw [sdCs, List.length_map, List.length_range]
    rw [h4, List.length_cons]
    ring

theorem selOf_length {s : Nat → Int} {st : SdState} (h : SdInv s st) :
    (selOf s st).length = st.hints + stackLen st := by
  rw [selOf, List.length_append, stackList, List.length_map, List.length_range, h.hints_eq]

/-- While fewer than 81 placements are selected, some constraint still
has a zero used-counter. -/
theorem exists_unused_constraint {s : Nat → Int} {st : SdState} (h : SdInv s st)
    (hsize : st.hints + stackLen st < 81) : ∃ c, c < 324 ∧ st.sc c = 0 := by
  by_contra hcon
  push_neg at hcon
  have hsub : Finset.range 324 ⊆ ((selOf s st).flatMap sdCs).toFinset := by
    intro c hc
    rw [Finset.mem_range] at hc
    rw [List.mem_toFinset]
    have hne := hcon c hc
    rw [h.sc_eq c] at hne
    have hne2 : scSpec (selOf s st) c ≠ 0 := by exact_mod_cast hne
    rw [scSpec] at hne2
    exact List.count_pos_iff.1 (Nat.pos_of_ne_zero hne2)
  have h1 : (324 : Nat) ≤ ((selOf s st).flatMap sdCs).toFinset.card := by
    calc (324 : Nat) = (Finset.range 324).card := (Finset.card_range 324).symm
      _ ≤ _ := Finset.card_le_card hsub
  have h2 : ((selOf s st).flatMap sdCs).toFinset.card ≤ ((selOf s st).flatMap sdCs).length :=
    List.toFinset_card_le _
  rw [flatMap_sdCs_length, selOf_length h] at h2
  omega

/-! ### Named inputs and grid validity, used by the claims below -/

/-- A completed 81-character grid is a valid Sudoku: every cell holds a
digit character, and no two distinct cells of the same row, column or
3x3 box hold the same digit.  (Nine distinct digits over nine cells
means each digit appears exactly once per unit.) -/
def validSudoku (g : List Int) : Prop :=
  g.length = 81 ∧ (∀ j, j < 81 → 49 ≤ g.getD j 0 ∧ g.getD j 0 ≤ 57) ∧
  ∀ a b, a < 81 → b < 81 → a ≠ b →
    (a / 9 = b / 9 ∨ a % 9 = b % 9 ∨ (a / 27 = b / 27 ∧ a % 9 / 3 = b % 9 / 3)) →
    g.getD a 0 ≠ g.getD b 0

def SdOutcome.isUB : SdOutcome → Bool
  | .ub _ => true
  | _ => false

/-- 81 copies of the digit one: a fully-filled, self-conflicting input. -/
def onesInput : Nat → Int := fun _ => 49

/-- 81 copies of the digit two. -/
def twosInput : Nat → Int := fun _ => 50

/-- An all-blank input (81 dots). -/
def dotsInput : Nat → Int := fun _ => 46

/-- The input `.123456789` followed by 71 dots: cell (0,0) is empty but
all nine digits are blocked there (1..8 by row 0, 9 by column 0), so the
very first MRV scan dead-ends at depth 0. -/
def ubInput : Nat → Int := fun j =>
  ([46, 49, 50, 51, 52, 53, 54, 55, 56, 57] : List Int).getD j 46

/-! ### Grids as exact covers

A valid completed grid determines, cell by cell, the 81 placements it
realizes; conversely a set of 81 pairwise constraint-disjoint placements
determines a unique valid grid.  These lemmas connect the two views and
drive both the soundness and the completeness of the search. -/

/-- Grid `g` realizes placement `r`: the cell of `r` holds the digit of
`r`. -/
def encodes (g : List Int) (r : Nat) : Prop := g.getD (r / 9) 0 = (r % 9 : Int) + 49

/-- `g` is a complete valid grid consistent with every placement in
`sel`: the solutions of the partial selection `sel`. -/
def gridSolves (sel : List Nat) (g : List Int) : Prop :=
  validSudoku g ∧ ∀ r ∈ sel, encodes g r

/-- Two placements incident to no common constraint. -/
def NoShare (p q : Nat) : Prop := ∀ c, c ∈ sdCs p → c ∉ sdCs q

theorem noShare_symm {p q : Nat} (h : NoShare p q) : NoShare q p :=
  fun c hcq hcp => h c hcp hcq

theorem sdC_0 (p : Nat) : sdC p 0 = 9 * (p / 81) + p / 9 % 9 := rfl

theorem sdC_1 (p : Nat) : sdC p 1 = (p / 81 / 3 * 3 + p / 9 % 9 / 3) * 9 + p % 9 + 81 := rfl

theorem sdC_2 (p : Nat) : sdC p 2 = 9 * (p / 81) + p % 9 + 162 := rfl

theorem sdC_3 (p : Nat) : sdC p 3 = 9 * (p / 9 % 9) + p % 9 + 243 := rfl

theorem sdC_ge3 (p c2 : Nat) : sdC p (c2 + 3) = 9 * (p / 9 % 9) + p % 9 + 243 := rfl

theorem sdC_lt {p : Nat} (hp : p < 729) (c2 : Nat) : sdC p c2 < 324 := by
  rcases c2 with _ | _ | _ | c2
  · rw [sdC_0]; omega
  · rw [sdC_1]; omega
  · rw [sdC_2]; omega
  · rw [sdC_ge3]; omega

/-- A grid cannot realize two distinct placements in the same cell. -/
theorem encodes_same_cell {g : List Int} {p q : Nat} (hpq : p ≠ q)
    (hcell : p / 9 = q / 9) (hep : encodes g p) (heq : encodes g q) : False := by
  rw [encodes, hcell] at hep
  rw [encodes] at heq
  rw [heq] at hep
  have hm : p % 9 = q % 9 := by omega
  omega

/-- Decomposition of a placement index into row, column and digit. -/
theorem place_decomp {p : Nat} (hp : p < 729) :
    ∃ i j k, i < 9 ∧ j < 9 ∧ k < 9 ∧ p = 81 * i + 9 * j + k :=
  ⟨p / 81, p / 9 % 9, p % 9, by omega, by omega, by omega, by omega⟩

/-- Core exclusivity: a valid grid cannot realize two distinct
placements that are incident to a common constraint. -/
theorem not_encodes_pair {g : List Int} (hv : validSudoku g) {p q c : Nat}
    (hp : p < 729) (hq : q < 729) (hpq : p ≠ q)
    (hcp : c ∈ sdCs p) (hcq : c ∈ sdCs q) (hep : encodes g p) (heq : encodes g q) :
    False := by
  obtain ⟨i1, j1, k1, hi1, hj1, hk1, rfl⟩ := place_decomp hp
  obtain ⟨i2, j2, k2, hi2, hj2, hk2, rfl⟩ := place_decomp hq
  by_cases hcell : (81 * i1 + 9 * j1 + k1) / 9 = (81 * i2 + 9 * j2 + k2) / 9
  · exact encodes_same_cell hpq hcell hep heq
  obtain ⟨hglen, hdig, hdist⟩ := hv
  have hunit : (i1 = i2 ∨ j1 = j2 ∨ (i1 / 3 = i2 / 3 ∧ j1 / 3 = j2 / 3)) → k1 = k2 → False := by
    intro hu hd
    have hne := hdist (9 * i1 + j1) (9 * i2 + j2) (by omega) (by omega) (by omega)
      (by rcases hu with h | h | ⟨h1, h2⟩
          · exact Or.inl (by omega)
          · exact Or.inr (Or.inl (by omega))
          · exact Or.inr (Or.inr ⟨by omega, by omega⟩))
    rw [encodes] at hep heq
    have ha : (81 * i1 + 9 * j1 + k1) / 9 = 9 * i1 + j1 := by omega
    have hb : (81 * i2 + 9 * j2 + k2) / 9 = 9 * i2 + j2 := by omega
    have hm1 : ((81 * i1 + 9 * j1 + k1 : Nat) : Int) % 9 = (k1 : Int) := by omega
    have hm2 : ((81 * i2 + 9 * j2 + k2 : Nat) : Int) % 9 = (k2 : Int) := by omega
    rw [ha, hm1] at hep
    rw [hb, hm2] at heq
    rw [hep, heq] at hne
    exact hne (by rw [hd])
  have d11 : (81 * i1 + 9 * j1 + k1) / 81 = i1 := by omega
  have d12 : (81 * i1 + 9 * j1 + k1) / 9 % 9 = j1 := by omega
  have d13 : (81 * i1 + 9 * j1 + k1) % 9 = k1 := by omega
  have d21 : (81 * i2 + 9 * j2 + k2) / 81 = i2 := by omega
  have d22 : (81 * i2 + 9 * j2 + k2) / 9 % 9 = j2 := by omega
  have d23 : (81 * i2 + 9 * j2 + k2) % 9 = k2 := by omega
  rcases mem_sdCs.1 hcp with hA | hA | hA | hA <;>
    rcases mem_sdCs.1 hcq with hB | hB | hB | hB <;>
    simp only [sdC_0, sdC_1, sdC_2, sdC_3, d11, d12, d13, d21, d22, d23] at hA hB
  · exact hcell (by omega)
  · omega
  · omega
  · omega
  · omega
  · exact hunit (Or.inr (Or.inr ⟨by omega, by omega⟩)) (by omega)
  · omega
  · omega
  · omega
  · omega
  · exact hunit (Or.inl (by omega)) (by omega)
  · omega
  · omega
  · omega
  · omega
  · exact hunit (Or.inr (Or.inl (by omega))) (by omega)

/-! ### The claims -/

/-- C2: for every 81-character input and every grid that `sd_solve`
prints, every cell that holds a digit character in the input holds that
same digit in the printed grid: givens are never overwritten. -/
theorem sd_solve_preserves_givens (s : Nat → Int) (fuel : Nat) (g : List Int)
    (hg : g ∈ sdEmitted s fuel) (j : Nat) (hj : j < 81)
    (hdig : 49 ≤ s j ∧ s j ≤ 57) : g.getD j 0 = s j :=
  sdEmitted_hint hg hj hdig.1 hdig.2

theorem sd_solve_preserves_givens_witness :
    (List.replicate 81 (50 : Int)) ∈ sdEmitted twosInput 3 ∧ (0 : Nat) < 81 ∧
      (49 ≤ twosInput 0 ∧ twosInput 0 ≤ 57) ∧
      (List.replicate 81 (50 : Int)).getD 0 0 = twosInput 0 :=
  ⟨by decide, by decide, by decide,
    sd_solve_preserves_givens twosInput 3 (List.replicate 81 (50 : Int)) (by decide) 0
      (by decide) (by decide)⟩

/-- C3: for every incidence matrix, state and placement, applying
`sd_update` with `v = +1` and then `v = -1` on the same placement
restores the state exactly. -/
theorem sd_update_self_inverse (cT rT : Nat → Nat → Nat) (sr sc : Nat → Int) (r : Nat)
    (hr : r < 729) :
    sd_update cT rT (sd_update cT rT sr sc r 1).1 (sd_update cT rT sr sc r 1).2 r (-1) =
      (sr, sc) := by
  rw [sd_update_eq_gen, sd_update_eq_gen]
  refine Prod.ext (funext fun p => ?_) (funext fun c => ?_) <;> dsimp only <;> ring

theorem sd_update_self_inverse_witness :
    (5 : Nat) < 729 ∧
      sd_update sdC sdRarr
        (sd_update sdC sdRarr (fun _ => 0) (fun _ => 0) 5 1).1
        (sd_update sdC sdRarr (fun _ => 0) (fun _ => 0) 5 1).2 5 (-1) =
      ((fun _ => 0), (fun _ => 0)) :=
  ⟨by decide, sd_update_self_inverse sdC sdRarr (fun _ => 0) (fun _ => 0) 5 (by decide)⟩

/-- C4: the placement `81*i + 9*j + k` built by `sd_genmat` is incident
to exactly one constraint of each family, with the four indices given by
the source formulas, lying in the four family bands. -/
theorem sd_genmat_constraint_row (i j k : Nat) (hi : i < 9) (hj : j < 9) (hk : k < 9) :
    sdCs (81 * i + 9 * j + k) =
      [9 * i + j, (i / 3 * 3 + j / 3) * 9 + k + 81, 9 * i + k + 162, 9 * j + k + 243] ∧
    9 * i + j < 81 ∧
    (81 ≤ (i / 3 * 3 + j / 3) * 9 + k + 81 ∧ (i / 3 * 3 + j / 3) * 9 + k + 81 < 162) ∧
    (162 ≤ 9 * i + k + 162 ∧ 9 * i + k + 162 < 243) ∧
    (243 ≤ 9 * j + k + 243 ∧ 9 * j + k + 243 < 324) := by
  refine ⟨?_, by omega, ⟨by omega, by omega⟩, ⟨by omega, by omega⟩, ⟨by omega, by omega⟩⟩
  rw [sdCs, show List.range 4 = [0, 1, 2, 3] from rfl]
  simp only [List.map_cons, List.map_nil, sdC, List.cons.injEq, and_true]
  refine ⟨by omega, by omega, by omega, by omega⟩

theorem sd_genmat_constraint_row_witness :
    ((0 : Nat) < 9 ∧ (0 : Nat) < 9 ∧ (0 : Nat) < 9) ∧
      sdCs 0 = [0, 81, 162, 243] := by
  refine ⟨⟨by decide, by decide, by decide⟩, ?_⟩
  have h := sd_genmat_constraint_row 0 0 0 (by decide) (by decide) (by decide)
  simpa using h.1

/-- C5: in the matrix built by `sd_genmat`, every constraint has exactly
9 distinct incident placements, every placement has exactly 4 distinct
constraints, and the two tables are mutually consistent. -/
theorem sd_genmat_tables (c r p : Nat) (hc : c < 324) (hr : r < 729) :
    (sdR c).length = 9 ∧ (sdR c).Nodup ∧
    (sdCs r).length = 4 ∧ (sdCs r).Nodup ∧
    (p ∈ sdR c ↔ p < 729 ∧ c ∈ sdCs p) := by
  refine ⟨sdR_length hc, ?_, ?_, ?_, mem_sdR⟩
  · exact (List.nodup_range 729).filter _
  · rw [sdCs, List.length_map, List.length_range]
  · have hcv : sdCs r = [9 * (r / 81) + r / 9 % 9,
        (r / 81 / 3 * 3 + r / 9 % 9 / 3) * 9 + r % 9 + 81,
        9 * (r / 81) + r % 9 + 162, 9 * (r / 9 % 9) + r % 9 + 243] := rfl
    rw [hcv]
    simp only [List.nodup_cons, List.mem_cons, List.not_mem_nil, or_false,
      List.nodup_nil, and_true, not_or, not_false_eq_true]
    refine ⟨⟨by omega, by omega, by omega⟩, ⟨by omega, by omega⟩, by omega⟩

theorem sd_genmat_tables_witness :
    ((0 : Nat) < 324 ∧ (0 : Nat) < 729) ∧
      (sdR 0).length = 9 ∧ (0 ∈ sdR 0 ↔ (0 < 729 ∧ 0 ∈ sdCs 0)) := by
  have h := sd_genmat_tables 0 0 0 (by decide) (by decide)
  exact ⟨⟨by decide, by decide⟩, h.1, h.2.2.2.2⟩

/-- C6 counterexample: the all-ones input has two hints with the same
digit in the same row and different columns, yet `sd_solve` prints a
grid for it (the 81 hints make the inner loop vacuous and the input is
printed back verbatim). -/
theorem sd_solve_conflict_emits :
    (49 ≤ onesInput 0 ∧ onesInput 0 ≤ 57) ∧ (49 ≤ onesInput 1 ∧ onesInput 1 ≤ 57) ∧
      onesInput 1 = onesInput 0 ∧ (0 : Nat) / 9 = 1 / 9 ∧ (0 : Nat) ≠ 1 ∧
      sdEmitted onesInput 3 = [List.replicate 81 49] := by
  refine ⟨by decide, by decide, by decide, by decide, by decide, by decide⟩

/-- C6 (amended): for every input containing two hints with the same
digit in the same row but different columns, every grid `sd_solve`
prints still carries both hint digits, so it repeats a digit inside a
row and is not a valid Sudoku solution. -/
theorem sd_solve_conflict_never_valid (s : Nat → Int) (fuel : Nat) (j1 j2 : Nat)
    (h1 : j1 < 81) (h2 : j2 < 81) (hne : j1 ≠ j2) (hrow : j1 / 9 = j2 / 9)
    (hd1 : 49 ≤ s j1 ∧ s j1 ≤ 57) (hd2 : s j2 = s j1)
    (g : List Int) (hg : g ∈ sdEmitted s fuel) :
    g.getD j1 0 = s j1 ∧ g.getD j2 0 = s j1 ∧ ¬ validSudoku g := by
  have e1 := sdEmitted_hint hg h1 hd1.1 hd1.2
  have e2 := sdEmitted_hint hg h2 (by omega) (by omega)
  rw [hd2] at e2
  refine ⟨e1, e2, ?_⟩
  rintro ⟨-, -, hdist⟩
  exact hdist j1 j2 h1 h2 hne (Or.inl hrow) (by rw [e1, e2])

theorem sd_solve_conflict_never_valid_witness :
    ((0 : Nat) < 81 ∧ (1 : Nat) < 81 ∧ (0 : Nat) ≠ 1 ∧ (0 : Nat) / 9 = 1 / 9 ∧
      (49 ≤ onesInput 0 ∧ onesInput 0 ≤ 57) ∧ onesInput 1 = onesInput 0 ∧
      List.replicate 81 (49 : Int) ∈ sdEmitted onesInput 3) ∧
      ¬ validSudoku (List.replicate 81 (49 : Int)) := by
  refine ⟨⟨by decide, by decide, by decide, by decide, by decide, by decide, by decide⟩, ?_⟩
  exact (sd_solve_conflict_never_valid onesInput 3 0 1 (by decide) (by decide) (by decide)
    (by decide) (by decide) (by decide) (List.replicate 81 (49 : Int)) (by decide)).2.2

set_option maxRecDepth 100000 in
set_option maxHeartbeats 2000000 in
/-- C7: on the concrete input `.123456789` followed by dots, the first
MRV scan finds the empty cell (0,0) with no viable digit, the dead-end
branch pushes the depth to -1, and the same loop body then reads
`cc[-1]`/`cr[-1]` out of bounds: the model reaches the
undefined-behavior outcome instead of leaving the loop normally. -/
theorem sd_solve_oob_reachable :
    (sdRun 2 (sdInit ubInput)).isUB = true ∧ sdEmitted ubInput 2 = [] := by
  refine ⟨by decide, by decide⟩

/-- C8: at every reachable forward search state with depth below
`81 - hints`, some constraint still has a zero used-counter, so the MRV
scan of lines 127-136 cannot end with the sentinel `min == 10`; only
`min == 0` can trigger the backtrack of line 137. -/
theorem sd_scan_no_sentinel (s : Nat → Int) (n : Nat) (st : SdState)
    (hst : sdSteps n (sdInit s) = some st) (hdir : st.dir = 1) (hi : 0 ≤ st.i)
    (hlt : st.i < 81 - (st.hints : Int)) :
    (sdScan st.sr st.sc 0 10 (st.cc st.i.toNat) st.c0).1 ≠ 10 := by
  have h := sdSteps_inv n (sdInit s) st (sdInit_inv s) hst
  have hslen : stackLen st = st.i.toNat := stackLen_fwd hdir
  have hsize : st.hints + stackLen st < 81 := by
    rw [hslen]
    omega
  obtain ⟨cz, hcz, hzero⟩ := exists_unused_constraint h hsize
  have hc0 := h.c0_le
  have hmin : (sdScan st.sr st.sc 0 10 (st.cc st.i.toNat) st.c0).1 ≤ 9 := by
    rw [sdScan]
    refine sdScanAux_min_le_nine st.sr st.sc 324 0 10 _ st.c0 (by omega) hc0 (Or.inr ?_)
    by_cases hA : st.c0 ≤ cz
    · refine ⟨cz - st.c0, Nat.zero_le _, by omega, ?_⟩
      have h2 : cz - st.c0 + st.c0 < 324 := by omega
      rw [if_pos h2, show cz - st.c0 + st.c0 = cz from by omega]
      exact hzero
    · refine ⟨cz + 324 - st.c0, Nat.zero_le _, by omega, ?_⟩
      have h2 : ¬ (cz + 324 - st.c0 + st.c0 < 324) := by omega
      rw [if_neg h2, show cz + 324 - st.c0 + st.c0 - 324 = cz from by omega]
      exact hzero
  omega

theorem sd_scan_no_sentinel_witness :
    (sdSteps 0 (sdInit dotsInput) = some (sdInit dotsInput) ∧
      (sdInit dotsInput).dir = 1 ∧ 0 ≤ (sdInit dotsInput).i ∧
      (sdInit dotsInput).i < 81 - ((sdInit dotsInput).hints : Int)) ∧
    (sdScan (sdInit dotsInput).sr (sdInit dotsInput).sc 0 10
      ((sdInit dotsInput).cc (sdInit dotsInput).i.toNat) (sdInit dotsInput).c0).1 ≠ 10 :=
  ⟨⟨rfl, by decide, by decide, by decide⟩,
    sd_scan_no_sentinel dotsInput 0 (sdInit dotsInput) rfl (by decide) (by decide) (by decide)⟩

/-- C9 counterexample: a newline-terminated line whose content is 80
characters (shorter than 81) is not ignored: `strlen(buf)` counts the
newline, reaches 81, and the line is solved (with the newline as the
81st, blank, cell), emitting at least the `putchar` newline. -/
theorem main_line_80_processed :
    (List.replicate 80 (46 : Int)).length < 81 ∧
      sdMainLine (List.replicate 80 (46 : Int)) 0 ≠ [] := by
  constructor
  · decide
  · rw [sdMainLine]
    have hlen : ¬ ((List.replicate 80 (46 : Int)) ++ [10]).length < 81 := by decide
    rw [if_neg hlen]
    simp

/-- C9 (amended): `main` ignores a newline-terminated line if and only
if its content (excluding the newline) is shorter than 80 characters:
`strlen` includes the newline that `fgets` keeps, and a processed line
always produces output (at least the `putchar` newline marker). -/
theorem main_line_short_ignored (content : List Int) (fuel : Nat) :
    sdMainLine content fuel = [] ↔ content.length < 80 := by
  rw [sdMainLine]
  by_cases h : (content ++ [10]).length < 81
  · rw [if_pos h]
    rw [List.length_append, List.length_singleton] at h
    exact ⟨fun _ => by omega, fun _ => rfl⟩
  · rw [if_neg h]
    rw [List.length_append, List.length_singleton] at h
    constructor
    · intro hcon
      exact absurd hcon (by simp)
    · intro hlen
      exact absurd hlen (by omega)

/-- C10: `sd_solve` reads only the first 81 characters of its input:
two inputs agreeing on positions 0..80 produce identical outcomes
(same prints, same final state), and the return value is always 0. -/
theorem sd_solve_reads_first_81 (s1 s2 : Nat → Int) (fuel : Nat)
    (hagree : ∀ j, j < 81 → s1 j = s2 j) :
    sd_solve s1 fuel = sd_solve s2 fuel ∧ (sd_solve s1 fuel).2 = 0 := by
  have hstep : ∀ (st : SdState), ∀ i ∈ List.range 81, sdInitStep s1 st i = sdInitStep s2 st i := by
    intro st i hi
    rw [List.mem_range] at hi
    rw [sdInitStep, sdInitStep, hagree i hi]
  have hinit : sdInit s1 = sdInit s2 := by
    rw [sdInit, sdInit]
    exact List.foldl_ext _ _ _ hstep
  exact ⟨by rw [sd_solve, sd_solve, hinit], rfl⟩

theorem sd_solve_reads_first_81_witness :
    (∀ j, j < 81 → dotsInput j = (fun x => if x < 81 then (46 : Int) else 0) j) ∧
      sd_solve dotsInput 2 = sd_solve (fun x => if x < 81 then (46 : Int) else 0) 2 ∧
      (sd_solve dotsInput 2).2 = 0 :=
  ⟨by decide, sd_solve_reads_first_81 dotsInput (fun x => if x < 81 then (46 : Int) else 0) 2
    (by decide)⟩

end Sudoku
